import Mathlib

/-!
Verification development for the crawl-and-rewrite engine of
`bitbucket_hg_exporter/__main__.py`.

The Python source is shallowly embedded: pure helpers become Lean functions
over `List Char` / association lists; the stateful crawler
(`BitBucketExport.get_and_save_json`, `download_file`, `DummyResponse`)
becomes explicit state passing over a `CrawlState` record with a fuel
parameter bounding recursion depth; the network is an oracle
`String → NetResp`.  Python `dict`s are modelled as insertion-ordered
association lists, matching CPython semantics (assignment to an existing key
keeps its position, a new key is appended at the end).
-/

namespace BBHE

/-! ## Basic character/string utilities (over `List Char`) -/

def isDigitC (c : Char) : Bool := '0' ≤ c && c ≤ '9'

def isAlphaC (c : Char) : Bool := ('a' ≤ c && c ≤ 'z') || ('A' ≤ c && c ≤ 'Z')

def isAlnumC (c : Char) : Bool := isDigitC c || isAlphaC c

/-- `startsWithL pat cs` : does `cs` start with `pat`? -/
def startsWithL : List Char → List Char → Bool
  | [], _ => true
  | _ :: _, [] => false
  | p :: ps, c :: cs => p == c && startsWithL ps cs

/-- Prefix test where `none` entries are regex `.` wildcards (any character).
Used for patterns whose literal dots were left unescaped in the source. -/
def startsWithW : List (Option Char) → List Char → Bool
  | [], _ => true
  | _ :: _, [] => false
  | none :: ps, _ :: cs => startsWithW ps cs
  | some p :: ps, c :: cs => p == c && startsWithW ps cs

/-- Substring containment (Python `in` on strings). -/
def containsL (pat : List Char) : List Char → Bool
  | [] => startsWithL pat []
  | c :: cs => startsWithL pat (c :: cs) || containsL pat cs

def endsWithL (pat cs : List Char) : Bool := startsWithL pat.reverse cs.reverse

/-- Python `str.replace`: replace every non-overlapping occurrence of `pat`
by `rep`, scanning left to right.  (The source never calls `replace` with an
empty pattern; an empty pattern is treated as a no-op here.) -/
def replaceLF (pat rep : List Char) : Nat → List Char → List Char
  | 0, cs => cs
  | _, [] => []
  | fuel + 1, c :: cs =>
    if startsWithL pat (c :: cs) && !pat.isEmpty then
      rep ++ replaceLF pat rep fuel (List.drop (pat.length - 1) cs)
    else
      c :: replaceLF pat rep fuel cs

def replaceL (pat rep cs : List Char) : List Char :=
  replaceLF pat rep cs.length cs

def pyReplace (s pat rep : String) : String :=
  String.mk (replaceL pat.data rep.data s.data)

/-- Split on a separator character (Python `str.split(sep)`); an empty input
yields one empty field, like Python. -/
def splitOnC (sep : Char) : List Char → List (List Char)
  | [] => [[]]
  | c :: cs =>
    if c = sep then
      [] :: splitOnC sep cs
    else
      match splitOnC sep cs with
      | [] => [[c]]
      | f :: rest => (c :: f) :: rest

def joinSep (sep : List Char) : List (List Char) → List Char
  | [] => []
  | [x] => x
  | x :: y :: rest => x ++ sep ++ joinSep sep (y :: rest)

/-! ## Percent encoding / decoding (models `urllib.parse` helpers) -/

def hexDigitU (n : Nat) : Char :=
  if n < 10 then Char.ofNat (48 + n) else Char.ofNat (55 + n)

def hexValC (c : Char) : Option Nat :=
  if '0' ≤ c && c ≤ '9' then some (c.toNat - 48)
  else if 'a' ≤ c && c ≤ 'f' then some (c.toNat - 87)
  else if 'A' ≤ c && c ≤ 'F' then some (c.toNat - 55)
  else none

/-- UTF-8 byte sequence of a character (as `Nat`s below 256). -/
def utf8Bytes (c : Char) : List Nat :=
  let n := c.toNat
  if n < 0x80 then [n]
  else if n < 0x800 then [0xC0 + n / 0x40, 0x80 + n % 0x40]
  else if n < 0x10000 then
    [0xE0 + n / 0x1000, 0x80 + (n / 0x40) % 0x40, 0x80 + n % 0x40]
  else
    [0xF0 + n / 0x40000, 0x80 + (n / 0x1000) % 0x40,
     0x80 + (n / 0x40) % 0x40, 0x80 + n % 0x40]

/-- `urllib.parse.quote_plus` on one character: alphanumerics and `_.-~` are
kept, a space becomes `+`, everything else is percent-encoded per UTF-8 byte. -/
def quotePlusChar (c : Char) : List Char :=
  if isAlnumC c || c = '_' || c = '.' || c = '-' || c = '~' then [c]
  else if c = ' ' then ['+']
  else ((utf8Bytes c).map (fun b => ['%', hexDigitU (b / 16), hexDigitU (b % 16)])).flatten

def quotePlusL (cs : List Char) : List Char := (cs.map quotePlusChar).flatten

/-- `urllib.parse.unquote`-style percent decoding.  Decodes `%XX` escapes
byte-wise (each decoded byte is kept as one character; multi-byte UTF-8
sequences are outside the concrete inputs exercised here); malformed escapes
are left as-is, as in Python. -/
def unquoteL : List Char → List Char
  | [] => []
  | '%' :: a :: b :: rest =>
    match hexValC a, hexValC b with
    | some x, some y => Char.ofNat (16 * x + y) :: unquoteL rest
    | _, _ => '%' :: unquoteL (a :: b :: rest)
  | c :: rest => c :: unquoteL rest

/-- `urllib.parse.unquote_plus`: like `unquoteL` but `+` decodes to a space. -/
def unquotePlusL : List Char → List Char
  | [] => []
  | '+' :: rest => ' ' :: unquotePlusL rest
  | '%' :: a :: b :: rest =>
    match hexValC a, hexValC b with
    | some x, some y => Char.ofNat (16 * x + y) :: unquotePlusL rest
    | _, _ => '%' :: unquotePlusL (a :: b :: rest)
  | c :: rest => c :: unquotePlusL rest

/-! ## Query parameter model

`urllib.parse.parse_qs` returns a dict mapping each name to a *list* of
string values; `rewrite_url` may additionally store ints, plain strings,
lists, or Python `None` into the dict. -/

inductive PVal where
  | vstr : String → PVal
  | vint : Int → PVal
  | vlist : List String → PVal
  | vnone : PVal
deriving DecidableEq, Repr

abbrev Params : Type := List (String × PVal)

/-- First-match association-list lookup (Python dict lookup). -/
def alookup {κ β : Type} [DecidableEq κ] (k : κ) : List (κ × β) → Option β
  | [] => none
  | (k', v) :: rest => if k' = k then some v else alookup k rest

/-- Python dict assignment: update in place if the key exists (keeping its
position), otherwise append at the end. -/
def aset {κ β : Type} [DecidableEq κ] (k : κ) (v : β) : List (κ × β) → List (κ × β)
  | [] => [(k, v)]
  | (k', w) :: rest => if k' = k then (k', v) :: rest else (k', w) :: aset k v rest

/-- Python dict `del`. -/
def adel {κ β : Type} [DecidableEq κ] (k : κ) (ps : List (κ × β)) : List (κ × β) :=
  ps.filter (fun kv => kv.1 ≠ k)

/-- `parse_qs` appending a decoded name/value pair. -/
def addQ (ps : Params) (k v : String) : Params :=
  match ps with
  | [] => [(k, PVal.vlist [v])]
  | (k', pv) :: rest =>
    if k' = k then
      match pv with
      | PVal.vlist xs => (k', PVal.vlist (xs ++ [v])) :: rest
      | other => (k', other) :: rest
    else (k', pv) :: addQ rest k v

/-- Split a query field at the first `=` (Python `str.partition`). -/
def splitEq : List Char → Option (List Char × List Char)
  | [] => none
  | c :: cs =>
    if c = '=' then some ([], cs)
    else (splitEq cs).map (fun p => (c :: p.1, p.2))

/-- `urllib.parse.parse_qs` with default arguments: fields are separated by
`&`, fields without `=` or with an empty value are dropped
(`keep_blank_values=False`), names and values are `unquote_plus`-decoded,
repeated names accumulate into their value list. -/
def parseQs (q : List Char) : Params :=
  (splitOnC '&' q).foldl
    (fun acc part =>
      match splitEq part with
      | none => acc
      | some (k, v) =>
        if v.isEmpty then acc
        else addQ acc (String.mk (unquotePlusL k)) (String.mk (unquotePlusL v)))
    []

/-- `urllib.parse.urlencode(params, doseq=True)`: list values expand to one
`name=value` field per element; ints and `None` go through `str()`. -/
def encodePair (k : String) (v : PVal) : List (List Char) :=
  match v with
  | PVal.vstr s => [quotePlusL k.data ++ '=' :: quotePlusL s.data]
  | PVal.vint n => [quotePlusL k.data ++ '=' :: quotePlusL (toString n).data]
  | PVal.vnone => [quotePlusL k.data ++ '=' :: quotePlusL "None".data]
  | PVal.vlist xs => xs.map (fun x => quotePlusL k.data ++ '=' :: quotePlusL x.data)

def urlencodeP (ps : Params) : String :=
  String.mk (joinSep ['&'] ((ps.map (fun kv => encodePair kv.1 kv.2)).flatten))

/-! ## URL splitting (`full_url_to_query`) -/

def bitbucketApiUrl : String := "https://api.bitbucket.org/2.0/"

/-- `full_url_to_query`: endpoint is the URL up to the query string (fragment
stripped), params are the parsed query. -/
def fullUrlToQuery (url : String) : String × Params :=
  let cs := url.data.takeWhile (· ≠ '#')
  let endpoint := cs.takeWhile (· ≠ '?')
  let query := (cs.dropWhile (· ≠ '?')).drop 1
  (String.mk endpoint, parseQs query)

/-- The endpoint normalisation done at the top of `get_and_save_json`:
`endpoint.replace(bitbucket_api_url, '')` then `endpoint.split('?')[0]`. -/
def normEndpoint (endpoint : String) : String :=
  String.mk ((replaceL bitbucketApiUrl.data [] endpoint.data).takeWhile (· ≠ '?'))

def bbEndpointToFullUrl (endpoint : String) : String := bitbucketApiUrl ++ endpoint

/-! ## Rewrite Rule Engine (`BitBucketExport.rewrite_url`) -/

/-- One `endpoint_match` entry: an exact string, or a compiled regex modelled
by its `findall`-is-nonempty test. -/
inductive EPMatch where
  | exact : String → EPMatch
  | pat : (String → Bool) → EPMatch

/-- One `params_match` value: `'*'`, Python `None`, or an exact value. -/
inductive MVal where
  | star : MVal
  | noneV : MVal
  | val : PVal → MVal

/-- One `params_to_update` value: Python `None` (meaning delete-if-present)
or a value to set. -/
inductive UVal where
  | noneU : UVal
  | val : PVal → UVal

structure RuleRewrite where
  paramsMatch : List (String × MVal)
  paramsToUpdate : List (String × UVal)

structure RewriteRule where
  endpointMatch : List EPMatch
  rewrites : List RuleRewrite

def epMatches (e : String) : EPMatch → Bool
  | EPMatch.exact s => e == s
  | EPMatch.pat f => f e

/-- One `params_match` predicate, as in the source: `'*'` always holds;
`None` fails only when the parameter is present with a value `!= None`;
an exact value requires presence and equality. -/
def matchOk (ps : Params) : String × MVal → Bool
  | (_, MVal.star) => true
  | (k, MVal.noneV) =>
    match alookup k ps with
    | none => true
    | some v => v == PVal.vnone
  | (k, MVal.val v) =>
    match alookup k ps with
    | none => false
    | some w => w == v

/-- One `params_to_update` application, as in the source: a `None` value
deletes the parameter when present (and otherwise stores `None`); any other
value is assigned. -/
def applyUpdate (ps : Params) : String × UVal → Params
  | (k, UVal.noneU) =>
    if (alookup k ps).isSome then adel k ps else aset k PVal.vnone ps
  | (k, UVal.val v) => aset k v ps

def applyRuleRewrite (ps : Params) (rw : RuleRewrite) : Params :=
  if rw.paramsMatch.all (matchOk ps) then rw.paramsToUpdate.foldl applyUpdate ps
  else ps

/-- `BitBucketExport.rewrite_url`: the endpoint is returned unchanged; every
rule whose matcher set hits the endpoint applies its rewrites cumulatively,
in declaration order. -/
def rewriteUrl (endpoint : String) (ps : Params) (rules : List RewriteRule) :
    String × Params :=
  (endpoint,
   rules.foldl
     (fun ps rule =>
       if rule.endpointMatch.any (epMatches endpoint) then
         rule.rewrites.foldl applyRuleRewrite ps
       else ps)
     ps)

/-! ## Path/Fingerprint Resolver (`get_and_save_json` lines 1529-1546) -/

/-- `os.path.join` for the shapes arising here. -/
def osJoin (a b : String) : String :=
  if b.data.head? = some '/' then b
  else if a = "" then b
  else if a.data.getLast? = some '/' then a ++ b
  else a ++ "/" ++ b

/-- The parameter simplification used for the save path: drop `sort`; drop
`ctx` when a `page` parameter is also present; drop `pagelen`. -/
def simplifyParams (ps : Params) : Params :=
  let ps := adel "sort" ps
  let ps :=
    if (alookup "page" ps).isSome && (alookup "ctx" ps).isSome then adel "ctx" ps
    else ps
  adel "pagelen" ps

/-- Storage path from the rewritten endpoint and rewritten params:
`os.path.join(save_path, endpoint)` plus `_<urlencoded simplified params>`
when non-empty, plus `.json`. -/
def endpointPathOf (savePath re : String) (rp : Params) : String :=
  let s := urlencodeP (simplifyParams rp)
  (if s = "" then osJoin savePath re else osJoin savePath re ++ "_" ++ s) ++ ".json"

/-- The complete Path Resolver: rewrite the (already normalised) endpoint and
params, then derive the storage path. -/
def storagePathFor (savePath : String) (rules : List RewriteRule)
    (endpoint : String) (ps : Params) : String :=
  let pr := rewriteUrl endpoint ps rules
  endpointPathOf savePath pr.1 pr.2

/-! ## Regex models

The compiled patterns of `__backup_api` / `get_and_save_json` are embedded as
executable functions.  `re.findall`-nonemptiness over a pattern
`PRE (\d+) MID (\?*)(?!\/).*` (and the `(.+?)` variants) is existence of a
substring decomposition; laziness is irrelevant for existence. -/

def anySuffixB (f : List Char → Bool) : List Char → Bool
  | [] => f []
  | c :: cs => f (c :: cs) || anySuffixB f cs

/-- `(\d*)` followed by continuation. -/
def digitsStarThen (k : List Char → Bool) : List Char → Bool
  | [] => k []
  | c :: cs => k (c :: cs) || (isDigitC c && digitsStarThen k cs)

/-- `(\d+)` followed by continuation. -/
def digitsPlusThen (k : List Char → Bool) : List Char → Bool
  | [] => false
  | c :: cs => isDigitC c && digitsStarThen k cs

/-- `(.*)` (no newline) followed by continuation. -/
def dotStarThen (k : List Char → Bool) : List Char → Bool
  | [] => k []
  | c :: cs => k (c :: cs) || (c ≠ '\n' && dotStarThen k cs)

/-- `(.+?)` (no newline, at least one char) followed by continuation. -/
def dotPlusThen (k : List Char → Bool) : List Char → Bool
  | [] => false
  | c :: cs => c ≠ '\n' && dotStarThen k cs

/-- `(\?*)(?!\/).*` : some `?`s, then the next character (if any) is not `/`. -/
def qStarNotSlash : List Char → Bool
  | [] => true
  | c :: cs => c ≠ '/' || (c = '?' && qStarNotSlash cs)

/-- `re.findall` nonemptiness for `PRE(\d+)MID(\?*)(?!\/).*`. -/
def reSegDigits (pre mid : String) (s : String) : Bool :=
  anySuffixB
    (fun cs =>
      startsWithL pre.data cs &&
      digitsPlusThen
        (fun rest =>
          startsWithL mid.data rest && qStarNotSlash (List.drop mid.data.length rest))
        (List.drop pre.data.length cs))
    s.data

/-- `re.findall` nonemptiness for `PRE(.+?)MID(\?*)(?!\/).*`. -/
def reSegDot (pre mid : String) (s : String) : Bool :=
  anySuffixB
    (fun cs =>
      startsWithL pre.data cs &&
      dotPlusThen
        (fun rest =>
          startsWithL mid.data rest && qStarNotSlash (List.drop mid.data.length rest))
        (List.drop pre.data.length cs))
    s.data

/-- `re.findall` nonemptiness for `PRE.*`. -/
def reSimple (pre : String) (s : String) : Bool :=
  anySuffixB (startsWithL pre.data) s.data

/-! ## The crawler's declared rewrite rules (`__backup_api`, lines 1290-1414) -/

def crawlerRewriteRules (owner repo : String) : List RewriteRule :=
  let rr := "repositories/" ++ owner ++ "/" ++ repo
  [ -- special case for pull requests
    { endpointMatch := [EPMatch.exact (rr ++ "/pullrequests")],
      rewrites :=
        [ { paramsMatch := [("state", MVal.noneV)],
            paramsToUpdate :=
              [("state", UVal.val (PVal.vlist ["MERGED", "OPEN", "SUPERSEDED", "DECLINED"]))] },
          { paramsMatch := [("pagelen", MVal.noneV)],
            paramsToUpdate := [("pagelen", UVal.val (PVal.vint 50))] },
          { paramsMatch := [("page", MVal.noneV)],
            paramsToUpdate := [("page", UVal.val (PVal.vint 1))] },
          { paramsMatch := [("sort", MVal.star)],
            paramsToUpdate := [("sort", UVal.val (PVal.vstr "created_on"))] } ] },
    -- endpoints that take a max pagelen of 50 but don't have a page by default
    { endpointMatch :=
        [EPMatch.pat (reSegDigits (rr ++ "/pullrequests/") "/activity"),
         EPMatch.exact (rr ++ "/pullrequests/activity")],
      rewrites :=
        [ { paramsMatch := [("pagelen", MVal.noneV)],
            paramsToUpdate := [("pagelen", UVal.val (PVal.vint 50))] },
          { paramsMatch := [("sort", MVal.star)],
            paramsToUpdate := [("sort", UVal.val (PVal.vstr "created_on"))] } ] },
    -- endpoints that take a max pagelen of 100 but don't have a page by default
    { endpointMatch :=
        [EPMatch.pat (reSegDigits (rr ++ "/issues/") "/changes"),
         EPMatch.pat (reSegDigits (rr ++ "/pullrequests/") "/commits"),
         EPMatch.exact (rr ++ "/refs/tags")],
      rewrites :=
        [ { paramsMatch := [("pagelen", MVal.noneV)],
            paramsToUpdate := [("pagelen", UVal.val (PVal.vint 100))] },
          { paramsMatch := [("sort", MVal.star)],
            paramsToUpdate := [("sort", UVal.val (PVal.vstr "created_on"))] } ] },
    -- endpoints that take a max pagelen of 100
    { endpointMatch :=
        [EPMatch.pat (reSegDigits (rr ++ "/issues/") "/attachments"),
         EPMatch.exact (rr ++ "/components"),
         EPMatch.exact (rr ++ "/milestones"),
         EPMatch.exact (rr ++ "/refs"),
         EPMatch.exact (rr ++ "/refs/branches"),
         EPMatch.exact (rr ++ "/versions"),
         EPMatch.exact (rr ++ "/watchers")],
      rewrites :=
        [ { paramsMatch := [("pagelen", MVal.noneV)],
            paramsToUpdate := [("pagelen", UVal.val (PVal.vint 100))] },
          { paramsMatch := [("page", MVal.noneV)],
            paramsToUpdate := [("page", UVal.val (PVal.vint 1))] } ] },
    -- endpoints that take a max pagelen of 100 and should be sorted by creation date
    { endpointMatch :=
        [EPMatch.pat (reSegDigits (rr ++ "/pullrequests/") "/comments"),
         EPMatch.pat (reSegDigits (rr ++ "/pullrequests/") "/statuses"),
         EPMatch.pat (reSegDigits (rr ++ "/issues/") "/comments"),
         EPMatch.pat (reSegDot (rr ++ "/commit/") "/comments"),
         EPMatch.pat (reSegDot (rr ++ "/commit/") "/statuses"),
         EPMatch.pat (reSimple (rr ++ "/commits/")),
         EPMatch.exact (rr ++ "/commits"),
         EPMatch.exact (rr ++ "/forks"),
         EPMatch.exact (rr ++ "/issues")],
      rewrites :=
        [ { paramsMatch := [("pagelen", MVal.noneV)],
            paramsToUpdate := [("pagelen", UVal.val (PVal.vint 100))] },
          { paramsMatch := [("page", MVal.noneV)],
            paramsToUpdate := [("page", UVal.val (PVal.vint 1))] },
          { paramsMatch := [("sort", MVal.star)],
            paramsToUpdate := [("sort", UVal.val (PVal.vstr "created_on"))] } ] },
    -- endpoints that take a max pagelen of 5000
    { endpointMatch := [EPMatch.pat (reSimple (rr ++ "/diffstat/"))],
      rewrites :=
        [ { paramsMatch := [("pagelen", MVal.noneV)],
            paramsToUpdate := [("pagelen", UVal.val (PVal.vint 5000))] },
          { paramsMatch := [("page", MVal.noneV)],
            paramsToUpdate := [("page", UVal.val (PVal.vint 1))] } ] } ]

/-! ## JSON values and `json.dump`

`json` is the Python stdlib; bodies are modelled structurally (`JVal`), and
`json.dump` with default arguments (separators `", "` / `": "`,
`ensure_ascii=True`) is embedded as `dumpJ`.  Numbers are integers here; the
concrete bodies exercised below use only ints. -/

inductive JVal where
  | jnull : JVal
  | jbool : Bool → JVal
  | jnum : Int → JVal
  | jstr : String → JVal
  | jarr : List JVal → JVal
  | jobj : List (String × JVal) → JVal
deriving Repr

def hexDigitL (n : Nat) : Char :=
  if n < 10 then Char.ofNat (48 + n) else Char.ofNat (87 + n)

def uHex4 (n : Nat) : List Char :=
  ['\\', 'u', hexDigitL (n / 4096 % 16), hexDigitL (n / 256 % 16),
   hexDigitL (n / 16 % 16), hexDigitL (n % 16)]

def jsonEscapeChar (c : Char) : List Char :=
  if c = '"' then ['\\', '"']
  else if c = '\\' then ['\\', '\\']
  else if c = '\n' then ['\\', 'n']
  else if c = '\t' then ['\\', 't']
  else if c = '\r' then ['\\', 'r']
  else if c.toNat = 8 then ['\\', 'b']
  else if c.toNat = 12 then ['\\', 'f']
  else if c.toNat < 0x20 || c.toNat ≥ 0x80 then uHex4 c.toNat
  else [c]

/-- An object key, dumped like a JSON string. -/
def dumpKey (k : String) : List Char :=
  '"' :: (k.data.map jsonEscapeChar).flatten ++ ['"']

mutual

def dumpJ : JVal → List Char
  | JVal.jnull => "null".data
  | JVal.jbool true => "true".data
  | JVal.jbool false => "false".data
  | JVal.jnum n => (toString n).data
  | JVal.jstr s => '"' :: (s.data.map jsonEscapeChar).flatten ++ ['"']
  | JVal.jarr xs => '[' :: dumpJArr xs ++ [']']
  | JVal.jobj fs => '\x7b' :: dumpJObj fs ++ ['\x7d']
termination_by structural v => v

def dumpJArr : List JVal → List Char
  | [] => []
  | [x] => dumpJ x
  | x :: y :: rest => dumpJ x ++ ", ".data ++ dumpJArr (y :: rest)
termination_by structural l => l

def dumpJObj : List (String × JVal) → List Char
  | [] => []
  | [(k, v)] => dumpKey k ++ ": ".data ++ dumpJ v
  | (k, v) :: f :: rest =>
    dumpKey k ++ ": ".data ++ dumpJ v ++ ", ".data ++ dumpJObj (f :: rest)
termination_by structural l => l

end

/-- `"next" in json_data` followed by `json_data['next']`, for the modelled
domain: a JSON object whose `next` member is a string.  (A non-object body or
a non-string `next` would make the Python recursion crash in
`full_url_to_query`; such responses are outside the modelled domain.) -/
def jNext : JVal → Option String
  | JVal.jobj fields =>
    match alookup "next" fields with
    | some (JVal.jstr s) => some s
    | _ => none
  | _ => none

/-! ## The crawl tree -/

/-- One node of `self.__tree`: the dict
`{'url', 'rewritten_url', 'endpoint_path', 'already_processed', 'children'}`.
`viaNetwork` is ghost instrumentation recording whether `requests.get` was
invoked to obtain this node's content (it mirrors which branch executed and
does not influence the computation). -/
inductive TNode where
  | mk : String → String → String → Bool → Bool → List TNode → TNode
deriving Repr

def TNode.url : TNode → String
  | TNode.mk u _ _ _ _ _ => u

def TNode.rewrittenUrl : TNode → String
  | TNode.mk _ r _ _ _ _ => r

def TNode.endpointPath : TNode → String
  | TNode.mk _ _ p _ _ _ => p

def TNode.alreadyProcessed : TNode → Bool
  | TNode.mk _ _ _ a _ _ => a

def TNode.viaNetwork : TNode → Bool
  | TNode.mk _ _ _ _ v _ => v

def TNode.children : TNode → List TNode
  | TNode.mk _ _ _ _ _ c => c

def TNode.withChildren : TNode → List TNode → TNode
  | TNode.mk u r p a v _, c => TNode.mk u r p a v c

/-- Navigate `for i in location: tree = tree[i]['children']`:
the forest addressed by a path of child indices. -/
def subForest : List TNode → List Nat → Option (List TNode)
  | ts, [] => some ts
  | ts, i :: is =>
    match ts.get? i with
    | some t => subForest t.children is
    | none => none

/-- Apply a function to the node at one index (identity when out of range). -/
def modIdx (f : TNode → TNode) : List TNode → Nat → List TNode
  | [], _ => []
  | t :: ts, 0 => f t :: ts
  | t :: ts, i + 1 => t :: modIdx f ts i

/-- Replace the forest addressed by a path of child indices (identity when the
address does not exist, which the Python invariants rule out). -/
def setSub : List TNode → List Nat → List TNode → List TNode
  | _, [], ys => ys
  | ts, i :: is, ys => modIdx (fun t => t.withChildren (setSub t.children is ys)) ts i

/-- `tree.append(node)` after navigating `location[:-1]`
(identity when the address does not exist; the Python code would raise). -/
def appendAt (ts : List TNode) (addr : List Nat) (x : TNode) : List TNode :=
  match subForest ts addr with
  | some us => setSub ts addr (us ++ [x])
  | none => ts

def markAPNode : TNode → TNode
  | TNode.mk u r p _ v c => TNode.mk u r p true v c

/-- `tree[-1]['already_processed'] = True` on a sibling list. -/
def markLastAP : List TNode → List TNode
  | [] => []
  | t :: rest =>
    match rest with
    | [] => [markAPNode t]
    | _ :: _ => t :: markLastAP rest

/-- `tree[-1]['already_processed'] = True` after navigating `location[:-1]`. -/
def markLastAt (ts : List TNode) (addr : List Nat) : List TNode :=
  match subForest ts addr with
  | some us => setSub ts addr (markLastAP us)
  | none => ts

def setViaNode : TNode → TNode
  | TNode.mk u r p a _ c => TNode.mk u r p a true c

/-- Ghost: record on the last-appended node that its content came from the
network (set in the branch that calls `requests.get`). -/
def setLastVia : List TNode → List TNode
  | [] => []
  | t :: rest =>
    match rest with
    | [] => [setViaNode t]
    | _ :: _ => t :: setLastVia rest

def setLastViaAt (ts : List TNode) (addr : List Nat) : List TNode :=
  match subForest ts addr with
  | some us => setSub ts addr (setLastVia us)
  | none => ts

def incLast (loc : List Nat) : List Nat :=
  match loc.getLast? with
  | some k => loc.dropLast ++ [k + 1]
  | none => loc

/-! ## `DummyResponse` (class-level path-keyed cache) -/

/-- `DummyResponse.cache` plus the `already_processed` attribute of every
cached object.  Object identity is modelled by an allocation tag. -/
structure DummyState where
  nextTag : Nat
  cache : List (String × Nat)
  flags : List (Nat × Bool)
deriving DecidableEq, Repr

structure DummyResp where
  tag : Nat
  alreadyProcessed : Bool
deriving DecidableEq, Repr

/-- `DummyResponse(path)`: `__new__` returns the cached object (setting its
`already_processed` to `True`) when the path was seen before, otherwise
allocates a fresh object which `__init__` initialises with
`already_processed = False` and stores in the class-level cache. -/
def dummyConstruct (path : String) (st : DummyState) : DummyResp × DummyState :=
  match alookup path st.cache with
  | some t => (⟨t, true⟩, { st with flags := aset t true st.flags })
  | none =>
    (⟨st.nextTag, false⟩,
     { nextTag := st.nextTag + 1,
       cache := st.cache ++ [(path, st.nextTag)],
       flags := st.flags ++ [(st.nextTag, false)] })

/-! ## Body scanners (the module-level `prog` and `file_download_regexes`) -/

/-- Lazy capture up to the first occurrence of `term` (no newline inside),
returning the capture and the rest after `term` — regex `(.*?)TERM`. -/
def lazyUntilF (term : List Char) : Nat → List Char → Option (List Char × List Char)
  | 0, _ => none
  | fuel + 1, cs =>
    if startsWithL term cs then some ([], cs.drop term.length)
    else
      match cs with
      | [] => none
      | c :: cs' =>
        if c = '\n' then none
        else (lazyUntilF term fuel cs').map (fun p => (c :: p.1, p.2))

/-- Lazy capture of at least one character — regex `(.+?)TERM`. -/
def lazyPlusUntil (term : List Char) (cs : List Char) : Option (List Char × List Char) :=
  match cs with
  | [] => none
  | c :: cs' =>
    if c = '\n' then none
    else (lazyUntilF term (cs'.length + 1) cs').map (fun p => (c :: p.1, p.2))

/-- The wildcard-prefix of the module-level `prog` pattern
`r'\"https://api.bitbucket.org/2.0/(.*?)\"'`: the dots were not escaped, so
they match any character. -/
def progPrefixW : List (Option Char) :=
  bitbucketApiUrl.data.map (fun c => if c = '.' then none else some c)

/-- `prog.findall(text)`: every capture between a quoted (unescaped-dot)
`https://api.bitbucket.org/2.0/` prefix and the next quote. -/
def progFindallF : Nat → List Char → List String
  | 0, _ => []
  | _, [] => []
  | fuel + 1, c :: cs =>
    if c = '"' && startsWithW progPrefixW cs then
      match lazyUntilF ['"'] (cs.length + 1) (cs.drop progPrefixW.length) with
      | some (cap, rest) => String.mk cap :: progFindallF fuel rest
      | none => progFindallF fuel cs
    else progFindallF fuel cs

def progFindall (text : String) : List String :=
  progFindallF (text.data.length + 1) text.data

/-- Generic scan for one of the `file_download_regexes`: an opening `"`,
a (wildcard) prefix, a middle part parsed by `mid` (which returns the
remainder of the capture and the rest after the terminator). -/
def scanQuotedF (pw : List (Option Char))
    (mid : List Char → Option (List Char × List Char)) :
    Nat → List Char → List String
  | 0, _ => []
  | _, [] => []
  | fuel + 1, c :: cs =>
    if c = '"' && startsWithW pw cs then
      match mid (cs.drop pw.length) with
      | some (midcap, rest) =>
        String.mk (cs.take pw.length ++ midcap) :: scanQuotedF pw mid fuel rest
      | none => scanQuotedF pw mid fuel cs
    else scanQuotedF pw mid fuel cs

def litW (s : String) : List (Option Char) := s.data.map some

/-- Middle of pattern 1: `[a-zA-Z0-9]+ /images/ (.+?) \"`. -/
def midImages (cs : List Char) : Option (List Char × List Char) :=
  let seg := cs.takeWhile isAlnumC
  let rest := cs.dropWhile isAlnumC
  if seg.isEmpty then none
  else if startsWithL "/images/".data rest then
    (lazyPlusUntil ['\\', '"'] (rest.drop 8)).map
      (fun p => (seg ++ "/images/".data ++ p.1, p.2))
  else none

def isAlnumDash (c : Char) : Bool := isAlnumC c || c = '-'

/-- Middle of pattern 2: `[a-zA-Z0-9\-]+ .prod.public.atl-paas.net/ (.+?) \"`. -/
def midEmoji (cs : List Char) : Option (List Char × List Char) :=
  let seg := cs.takeWhile isAlnumDash
  let rest := cs.dropWhile isAlnumDash
  let dom := ".prod.public.atl-paas.net/".data
  if seg.isEmpty then none
  else if startsWithL dom rest then
    (lazyPlusUntil ['\\', '"'] (rest.drop dom.length)).map
      (fun p => (seg ++ dom ++ p.1, p.2))
  else none

/-- Middle of pattern 5: `(\d+) /attachments/ (.+?) "`. -/
def midAttach (cs : List Char) : Option (List Char × List Char) :=
  let seg := cs.takeWhile isDigitC
  let rest := cs.dropWhile isDigitC
  if seg.isEmpty then none
  else if startsWithL "/attachments/".data rest then
    (lazyPlusUntil ['"'] (rest.drop 13)).map
      (fun p => (seg ++ "/attachments/".data ++ p.1, p.2))
  else none

/-- Per-repository configuration of the export (owner, repo slug, raw save
path — `self.__owner`, `self.__repository`, `self.__save_path`). -/
structure Cfg where
  owner : String
  repo : String
  savePath : String
deriving DecidableEq, Repr

/-- `self.file_download_regexes`: all captures of the five asset patterns, in
pattern order then text order, as iterated by `get_and_save_json`.
Pattern 3's `secure.gravatar.com` dots are unescaped in the source, hence
wildcards. -/
def fileDownloadUrls (cfg : Cfg) (text : String) : List String :=
  let cs := text.data
  let f := cs.length + 1
  scanQuotedF (litW "https://bitbucket.org/repo/") midImages f cs ++
  scanQuotedF (litW "https://pf-emoji-service--cdn.") midEmoji f cs ++
  scanQuotedF ("https://secure.gravatar.com/avatar/".data.map
      (fun c => if c = '.' then none else some c))
    (fun t => lazyPlusUntil ['"'] t) f cs ++
  scanQuotedF (litW "https://bytebucket.org/")
    (fun t => lazyPlusUntil ['"'] t) f cs ++
  scanQuotedF (litW ("https://api.bitbucket.org/2.0/repositories/" ++ cfg.owner ++
      "/" ++ cfg.repo ++ "/issues/"))
    midAttach f cs

/-- `re.match(r'repositories/{owner}/{repo}/issues/(\d+)$', result)`:
the whole string is the issue endpoint followed by at least one digit. -/
def isBareIssueRef (cfg : Cfg) (r : String) : Bool :=
  let pre := ("repositories/" ++ cfg.owner ++ "/" ++ cfg.repo ++ "/issues/").data
  startsWithL pre r.data &&
    (let rest := r.data.drop pre.length
     !rest.isEmpty && rest.all isDigitC)

/-! ## Ignore rules -/

inductive IgnType where
  | within : IgnType
  | startsW : IgnType
  | endsW : IgnType
deriving DecidableEq, Repr

structure IgnoreRule where
  typ : IgnType
  neg : Bool
  str : String
deriving DecidableEq, Repr

def ruleFires (r : String) (rule : IgnoreRule) : Bool :=
  let b :=
    match rule.typ with
    | IgnType.within => containsL rule.str.data r.data
    | IgnType.startsW => startsWithL rule.str.data r.data
    | IgnType.endsW => endsWithL rule.str.data r.data
  if rule.neg then !b else b

/-- The skip loop of `get_and_save_json`: `skip` is recomputed per rule and
the loop breaks at the first rule that fires, so the result is `any`. -/
def skipByRules (rules : List IgnoreRule) (r : String) : Bool :=
  rules.any (ruleFires r)

/-! ## The crawler state and `get_and_save_json` / `download_file` -/

inductive FileContent where
  | fjson : JVal → FileContent
  | fbin : FileContent
deriving Repr

/-- A network response as observed by the crawler: status code, raw text, and
the outcome of `response.json()` on that text (`none` = parse error). -/
structure NetResp where
  status : Nat
  text : String
  json : Option JVal

/-- The network, as an oracle from requested URL to response. -/
def Oracle := String → NetResp

/-- The mutable state of one export run: the saved files, the class-level
`DummyResponse` cache, the crawl tree and current location, the three
progress counters, and a ghost log of URLs requested over the network. -/
structure CrawlState where
  fs : List (String × FileContent)
  dummy : DummyState
  tree : List TNode
  loc : List Nat
  filesDownloaded : Int
  duplicatesSkipped : Int
  alreadyDownloaded : Int
  netLog : List String

/-- The save-path computation of `download_file`: strip the `%2F` escapes,
percent-decode, drop the API prefix and scheme, remove filesystem-illegal
characters, and join under the raw save path. -/
def downloadPathOf (cfg : Cfg) (baseUrl : String) : String :=
  let corrected0 := unquoteL (replaceL "%2F".data [] baseUrl.data)
  let corrected1 := replaceL bitbucketApiUrl.data [] corrected0
  let corrected2 := replaceL "https://".data [] corrected1
  let corrected3 := replaceL "http://".data [] corrected2
  let corrected :=
    (['?', ':', '\\', '*', '<', '>', '"', '|'] : List Char).foldl
      (fun cs c => replaceL [c] [] cs) corrected3
  osJoin cfg.savePath (String.mk corrected)

/-- `BitBucketExport.download_file`. -/
def downloadFile (O : Oracle) (cfg : Cfg) (baseUrl : String) (s : CrawlState) :
    CrawlState :=
  let savePath := downloadPathOf cfg baseUrl
  let node := TNode.mk baseUrl baseUrl savePath false false []
  let s1 := { s with tree := appendAt s.tree s.loc.dropLast node }
  if (alookup savePath s1.fs).isSome then
    { s1 with
      tree := markLastAt s1.tree s1.loc.dropLast,
      alreadyDownloaded := s1.alreadyDownloaded + 1 }
  else
    { s1 with
      tree := setLastViaAt s1.tree s1.loc.dropLast,
      netLog := s1.netLog ++ [baseUrl],
      fs := aset savePath FileContent.fbin s1.fs,
      filesDownloaded := s1.filesDownloaded + 1 }

/-- One child call followed by `tree_increment_level`. -/
def crawlStep (g : String → CrawlState → CrawlState) (u : String)
    (s : CrawlState) : CrawlState :=
  let s := g u s
  { s with loc := incLast s.loc }

/-- One referenced-endpoint step of `get_and_save_json`: the unconditional
`/changes` sibling for bare issue references, then the ignore rules, then the
recursive call. -/
def refsStep (rec : String → CrawlState → CrawlState) (cfg : Cfg)
    (ign : List IgnoreRule) (s : CrawlState) (r : String) : CrawlState :=
  let s :=
    if isBareIssueRef cfg r then
      crawlStep rec (bbEndpointToFullUrl (r ++ "/changes")) s
    else s
  if skipByRules ign r then s
  else crawlStep rec (bbEndpointToFullUrl r) s

/-- The discovery phase of one `get_and_save_json` body after the location
has been pushed one level down: the pagination `next` call, the file
downloads found in the raw text, the referenced endpoints, then
`tree_finished_level`. -/
def gasjBody (rec : String → CrawlState → CrawlState) (O : Oracle) (cfg : Cfg)
    (ign : List IgnoreRule) (text : String) (next : Option String)
    (s : CrawlState) : CrawlState :=
  let s :=
    match next with
    | some nurl => crawlStep rec nurl s
    | none => s
  let s :=
    (fileDownloadUrls cfg text).foldl
      (fun s u => crawlStep (downloadFile O cfg) u s) s
  let s := (progFindall text).foldl (refsStep rec cfg ign) s
  { s with loc := s.loc.dropLast }

/-- The shared continuation of `get_and_save_json` after a response has been
obtained (source line 1588 on): persist and recurse on 200-with-JSON, discard
on non-JSON 200, abort the branch on other statuses.  `rec` is the recursive
`get_and_save_json` call (instantiated with one less fuel by `gasj`). -/
def gasjHandle (rec : String → CrawlState → CrawlState) (O : Oracle) (cfg : Cfg)
    (ign : List IgnoreRule) (epath : String)
    (resp : NetResp) (s : CrawlState) : CrawlState :=
  if resp.status = 200 then
    match resp.json with
    | none =>
      -- non-JSON 200: discard and abort this branch
      { s with filesDownloaded := s.filesDownloaded - 1 }
    | some j =>
      let s := { s with fs := aset epath (FileContent.fjson j) s.fs }
      let s := { s with loc := s.loc ++ [0] }
      gasjBody rec O cfg ign resp.text (jNext j) s
  else
    -- 401 / 404 / other: log and abort this branch only
    { s with filesDownloaded := s.filesDownloaded - 1 }

/-- One call of `get_and_save_json` once the endpoint path, the rewritten
URL and the tree node have been computed: register the node, then either the
duplicate-skip branch, the cached-file branch or the network branch, each
ending in the shared continuation `gasjHandle`. -/
def gasjCore (rec : String → CrawlState → CrawlState) (O : Oracle) (cfg : Cfg)
    (ign : List IgnoreRule) (epath rewrittenBase : String) (node : TNode)
    (s : CrawlState) : CrawlState :=
  let s1 := { s with tree := appendAt s.tree s.loc.dropLast node }
  match alookup epath s1.fs with
  | some fc =>
    let d := dummyConstruct epath s1.dummy
    let s2 := { s1 with dummy := d.2 }
    if d.1.alreadyProcessed then
      { s2 with
        tree := markLastAt s2.tree s2.loc.dropLast,
        duplicatesSkipped := s2.duplicatesSkipped + 1 }
    else
      let s3 := { s2 with alreadyDownloaded := s2.alreadyDownloaded + 1 }
      let resp :=
        match fc with
        | FileContent.fjson j => NetResp.mk 200 (String.mk (dumpJ j)) (some j)
        | FileContent.fbin => NetResp.mk 200 "" none
      gasjHandle rec O cfg ign epath resp s3
  | none =>
    let resp := O rewrittenBase
    let s3 :=
      { s1 with
        tree := setLastViaAt s1.tree s1.loc.dropLast,
        netLog := s1.netLog ++ [rewrittenBase],
        filesDownloaded := s1.filesDownloaded + 1 }
    gasjHandle rec O cfg ign epath resp s3

/-- `BitBucketExport.get_and_save_json`, fuel-indexed (the fuel bounds the
recursion depth; with fuel 0 a call does nothing, modelling only runs whose
recursion terminates within the supplied fuel). -/
def gasj (O : Oracle) (cfg : Cfg) :
    Nat → String → List IgnoreRule → List RewriteRule → CrawlState → CrawlState
  | 0, _, _, _, s => s
  | fuel + 1, baseUrl, ign, rw, s =>
    let ep := fullUrlToQuery baseUrl
    let endpoint := normEndpoint ep.1
    let pr := rewriteUrl endpoint ep.2 rw
    let encoded := urlencodeP pr.2
    let epath := endpointPathOf cfg.savePath pr.1 pr.2
    let rewrittenBase :=
      bitbucketApiUrl ++ pr.1 ++ (if encoded = "" then "" else "?" ++ encoded)
    let node := TNode.mk baseUrl rewrittenBase epath false false []
    gasjCore (fun u t => gasj O cfg fuel u ign rw t) O cfg ign epath
      rewrittenBase node s
termination_by structural fuel _ _ _ _ => fuel

/-! ## Comment Hierarchy Reconstructor
(`MigrationProject.__confirm_project_settings` lines 694-719 and
`flatten_comments` lines 108-116)

The Python builds `comment_hierarchy` / `comment_flat` as shared mutable
`OrderedDict`s keyed by comment id: placing a comment inserts a fresh node
into its parent's `children` dict (or into the top level), in placement
order.  With pairwise distinct ids (ids are the identity of comments) this
structure is exactly: roots = placed comments without parent, in placement
order; children of a placed comment = placed comments declaring its id as
parent, in placement order.  The embedding derives the forest from the
placement order accordingly, and `flattenTrees` mirrors `flatten_comments`,
including that the depth mark is written onto the `parent` sub-dict, hence
only for comments that have a parent. -/

structure PyComment where
  cid : Nat
  parent : Option Nat
deriving DecidableEq, Repr

/-- Ids of the already placed comments (the key set of `comment_flat`). -/
def placedIds (cs : List PyComment) (done : List Nat) : List Nat :=
  done.filterMap (fun i => (cs.get? i).map PyComment.cid)

/-- One step of the inner `for i, comment in enumerate(comments)` loop:
place comment `i` if it is unplaced and its parent is satisfied. -/
def passStep (cs : List PyComment) (done : List Nat) (i : Nat) : List Nat :=
  if i ∈ done then done
  else
    match cs.get? i with
    | none => done
    | some c =>
      match c.parent with
      | none => done ++ [i]
      | some pid => if pid ∈ placedIds cs done then done ++ [i] else done

/-- One full pass of the inner loop. -/
def placePass (cs : List PyComment) (done : List Nat) : List Nat :=
  (List.range cs.length).foldl (passStep cs) done

/-- The `while len(done_idxs) < len(comments)` loop, fuelled by the number of
comments: when the Python loop terminates, it terminates within
`cs.length` passes (each non-final pass places at least one comment), and
extra fuel is a no-op; when the Python loop diverges, the result here stays
incomplete. -/
def placeLoop (cs : List PyComment) : Nat → List Nat → List Nat
  | 0, done => done
  | n + 1, done =>
    if done.length < cs.length then placeLoop cs n (placePass cs done) else done

def placeAll (cs : List PyComment) : List Nat := placeLoop cs cs.length []

/-- Children (indices) of the placed comment with id `pid`, in placement
order — the insertion order of its `children` OrderedDict. -/
def kidsOf (cs : List PyComment) (order : List Nat) (pid : Nat) : List Nat :=
  order.filter (fun j =>
    match cs.get? j with
    | some c => c.parent == some pid
    | none => false)

/-- Root indices in placement order — the insertion order of
`comment_hierarchy`. -/
def rootsOf (cs : List PyComment) (order : List Nat) : List Nat :=
  order.filter (fun j =>
    match cs.get? j with
    | some c => c.parent.isNone
    | none => false)

def idOf (cs : List PyComment) (j : Nat) : Nat :=
  match cs.get? j with
  | some c => c.cid
  | none => 0

inductive ITree where
  | node : Nat → List ITree → ITree
deriving Repr

def ITree.root : ITree → Nat
  | ITree.node j _ => j

def ITree.kids : ITree → List ITree
  | ITree.node _ k => k

/-- Build the subtree lists, fuelled by nesting depth (a parent is always
placed strictly before its children, so `order.length` fuel suffices for
orders produced by `placeAll`). -/
def buildKids (cs : List PyComment) (order : List Nat) : Nat → Nat → List ITree
  | 0, _ => []
  | fuel + 1, pid =>
    (kidsOf cs order pid).map (fun j => ITree.node j (buildKids cs order fuel (idOf cs j)))

def buildForest (cs : List PyComment) (order : List Nat) : List ITree :=
  (rootsOf cs order).map
    (fun j => ITree.node j (buildKids cs order order.length (idOf cs j)))

/-! `flatten_comments`: emit each node then its subtree; the depth mark
(`c['parent']['depth'] = depth`) is attached only when the comment has a
parent, and records the node's own nesting level. -/

mutual

def flattenTree (cs : List PyComment) : ITree → Nat → List (Nat × Option Nat)
  | ITree.node j kids, depth =>
    (j, if ((cs.get? j).bind PyComment.parent).isSome then some depth else none)
      :: flattenKids cs kids (depth + 1)
termination_by structural t => t

def flattenKids (cs : List PyComment) : List ITree → Nat → List (Nat × Option Nat)
  | [], _ => []
  | t :: rest, depth => flattenTree cs t depth ++ flattenKids cs rest depth
termination_by structural l => l

end

def flattenTrees (cs : List PyComment) (ts : List ITree) (depth : Nat) :
    List (Nat × Option Nat) :=
  flattenKids cs ts depth

/-- The whole reconstruction: fixed-point placement, then depth-first
flattening with depth marks.  Output entries are (original index, depth mark). -/
def reconstruct (cs : List PyComment) : List (Nat × Option Nat) :=
  flattenTrees cs (buildForest cs (placeAll cs)) 0

/-! ## Link Rewriter text transformation
(`make_urls_relative` lines 1703-1731, `fix_stupid_bitbucket_urls`,
`fix_stupid_bitbucket_email_links`) -/

/-- `child['endpoint_path'].replace(save_path, 'data').replace('\\\\', '/')
.replace('\\', '/')` (the Python literals denote two backslashes and one
backslash respectively). -/
def childNewUrl (savePath : String) (child : TNode) : List Char :=
  replaceL ['\\'] ['/']
    (replaceL ['\\', '\\'] ['/']
      (replaceL savePath.data "data".data child.endpointPath.data))

/-- The child-URL replacement loop: plain JSON string form, escaped-quote
form, and markdown image form. -/
def replaceChildUrls (savePath : String) (children : List TNode) (data : List Char) :
    List Char :=
  children.foldl
    (fun d child =>
      let nu := childNewUrl savePath child
      let u := child.url.data
      let d := replaceL ('"' :: u ++ ['"']) ('"' :: nu ++ ['"']) d
      let d :=
        replaceL (['\\', '"'] ++ u ++ ['\\', '"']) (['\\', '"'] ++ nu ++ ['\\', '"']) d
      replaceL ("![](".data ++ u ++ [')']) ("![](".data ++ nu ++ [')']) d)
    data

/-- Group 4 of the fixup pattern:
`((\\\")|(\/(.*?))\\\")` — either the two characters backslash-quote, or a
slash, a lazy part, and backslash-quote.  Returns (group-4 text, rest). -/
def stupidTryAlt (rest3 : List Char) : Option (List Char × List Char) :=
  if startsWithL ['\\', '"'] rest3 then some (['\\', '"'], rest3.drop 2)
  else
    match rest3 with
    | '/' :: r =>
      (lazyUntilF ['\\', '"'] (r.length + 1) r).map
        (fun p => ('/' :: p.1 ++ ['\\', '"'], p.2))
    | _ => none

/-- Search for group 3 (`(.*?)`, lazy) followed by group 4. -/
def stupidG3Search : Nat → List Char → Option (List Char × List Char × List Char)
  | 0, _ => none
  | fuel + 1, rest2 =>
    match stupidTryAlt rest2 with
    | some (g4, rest) => some ([], g4, rest)
    | none =>
      match rest2 with
      | [] => none
      | c :: r =>
        if c = '\n' then none
        else (stupidG3Search fuel r).map (fun q => (c :: q.1, q.2.1, q.2.2))

/-- Search for group 2 (`(.*?)`, lazy), a literal `/`, then groups 3-4.
Lazy priority: the shortest group 2 that admits a completion wins. -/
def stupidG2Search : Nat → List Char →
    Option (List Char × List Char × List Char × List Char)
  | 0, _ => none
  | fuel + 1, cs =>
    match cs with
    | [] => none
    | c :: r =>
      (if c = '/' then
        (stupidG3Search (r.length + 1) r).map (fun q => ([], q.1, q.2.1, q.2.2))
      else none).orElse
        (fun _ =>
          if c ≠ '\n' then
            (stupidG2Search fuel r).map (fun q => (c :: q.1, q.2.1, q.2.2.1, q.2.2.2))
          else none)

/-- A match of the fixup pattern
`\\\"(https\:\/\/api\.bitbucket\.org\/(.*?)\/(.*?)((\\\")|(\/(.*?))\\\"))`
at the head of the input: the escaped-quote and literal URL prefix, then
groups 2-4.  Returns (group 0, group 2, group 3, group 4, rest). -/
def stupidMatchAt (cs : List Char) :
    Option (String × String × String × String × List Char) :=
  let pre := ['\\', '"'] ++ "https://api.bitbucket.org/".data
  if startsWithL pre cs then
    let tail := cs.drop pre.length
    (stupidG2Search (tail.length + 1) tail).map
      (fun q =>
        (String.mk (pre ++ q.1 ++ '/' :: q.2.1 ++ q.2.2.1),
         String.mk q.1, String.mk q.2.1, String.mk q.2.2.1, q.2.2.2))
  else none

/-- `BitBucketExport.fix_stupid_bitbucket_urls`. -/
def fixStupid (repoList : List (String × String)) (g0 g2 g3 g4 : String) : String :=
  if (g2, g3) ∈ repoList then
    String.mk (['\\', '"', '#', '!', '/'] ++ g2.data ++ '/' :: g3.data ++ g4.data)
  else if !containsL "https://api.bitbucket.org/2.0/".data g0.data &&
      !containsL "https://api.bitbucket.org/1.0/".data g0.data then
    String.mk (replaceL "https://api.bitbucket.org".data "https://bitbucket.org".data g0.data)
  else g0

/-- `re.sub` with the fixup pattern and `fix_stupid_bitbucket_urls`. -/
def subStupidF (repoList : List (String × String)) : Nat → List Char → List Char
  | 0, cs => cs
  | _, [] => []
  | fuel + 1, c :: cs =>
    match stupidMatchAt (c :: cs) with
    | some (g0, g2, g3, g4, rest) =>
      (fixStupid repoList g0 g2 g3 g4).data ++ subStupidF repoList fuel rest
    | none => c :: subStupidF repoList fuel cs

/-- Minimal model of `html.unescape` (stdlib): decimal numeric character
references and the five basic named entities; anything else is kept. -/
def htmlUnescapeF : Nat → List Char → List Char
  | 0, cs => cs
  | _, [] => []
  | fuel + 1, c :: cs =>
    if c = '&' then
      match cs with
      | '#' :: r =>
        let ds := r.takeWhile isDigitC
        let rest := r.dropWhile isDigitC
        match rest with
        | ';' :: rest' =>
          if ds.isEmpty then c :: htmlUnescapeF fuel cs
          else
            Char.ofNat (ds.foldl (fun n d => 10 * n + (d.toNat - 48)) 0)
              :: htmlUnescapeF fuel rest'
        | _ => c :: htmlUnescapeF fuel cs
      | _ =>
        if startsWithL "amp;".data cs then '&' :: htmlUnescapeF fuel (cs.drop 4)
        else if startsWithL "lt;".data cs then '<' :: htmlUnescapeF fuel (cs.drop 3)
        else if startsWithL "gt;".data cs then '>' :: htmlUnescapeF fuel (cs.drop 3)
        else if startsWithL "quot;".data cs then '"' :: htmlUnescapeF fuel (cs.drop 5)
        else c :: htmlUnescapeF fuel cs
    else c :: htmlUnescapeF fuel cs

def mailtoEntities : List Char :=
  "&#109;&#97;&#105;&#108;&#116;&#111;&#58;".data

/-- A match of the obfuscated-email pattern
`(\\\"\/.*?(&#109;&#97;&#105;&#108;&#116;&#111;&#58;)(.*?)\\\")` at the head
of the input; returns (group 3, rest). -/
def emailMatchAt (cs : List Char) : Option (String × List Char) :=
  if startsWithL ['\\', '"', '/'] cs then
    let t := cs.drop 3
    (lazyUntilF mailtoEntities (t.length + 1) t).bind
      (fun p =>
        (lazyUntilF ['\\', '"'] (p.2.length + 1) p.2).map
          (fun q => (String.mk q.1, q.2)))
  else none

/-- `re.sub` with the email pattern and `fix_stupid_bitbucket_email_links`:
the replacement is `\"mailto:<html.unescape(group 3)>\"`. -/
def subEmailF : Nat → List Char → List Char
  | 0, cs => cs
  | _, [] => []
  | fuel + 1, c :: cs =>
    match emailMatchAt (c :: cs) with
    | some (g3, rest) =>
      ['\\', '"'] ++ "mailto:".data ++ htmlUnescapeF (g3.data.length + 1) g3.data ++
        ['\\', '"'] ++ subEmailF fuel rest
    | none => c :: subEmailF fuel cs

/-- The `for name in mapping` loop: rewrite full repository URLs to
in-archive anchors. -/
def applyMapping (mapping : List String) (d : List Char) : List Char :=
  mapping.foldl
    (fun d name =>
      replaceL ("https://bitbucket.org/".data ++ name.data)
        ("#!/".data ++ name.data) d)
    d

/-- Models the Python tuple unpacking
`for old_url, (new_url, _) in self.__external_URL_rewrites:` on one element.
Iterating a dict yields its KEYS (strings).  The outer unpack requires the
key to have length 2; the inner unpack then takes `key[1]` — a one-character
string — and tries to unpack it into two targets, which fails for every
possible key.  So any non-empty table raises `ValueError`. -/
def unpackExternalKey (k : String) : Option (String × String × String) :=
  match k.data with
  | [a, b] =>
    match (String.mk [b]).data with
    | [x, y] => some (String.mk [a], String.mk [x], String.mk [y])
    | _ => none
  | _ => none

/-- The external URL rewrite loop of `make_urls_relative` (line 1730): the
table is the loaded dict, given as its item list `(old, (new, gh-new))`. -/
def applyExternalRewrites (tbl : List (String × String × String)) (data : String) :
    Except String String :=
  match tbl with
  | [] => Except.ok data
  | (k, _, _) :: rest =>
    match unpackExternalKey k with
    | none => Except.error "ValueError: too many values to unpack"
    | some (oldU, newU, _) =>
      applyExternalRewrites rest (String.mk (replaceL oldU.data newU.data data.data))

/-- Configuration of the Link Rewriter relevant to the text transformation. -/
structure RelCfg where
  savePath : String
  repoList : List (String × String)
  mapping : List String
  externals : List (String × String × String)

/-- The complete JSON-branch text transformation of `make_urls_relative` for
one node: child-URL replacement, the two regex fixups, the name→anchor
mapping, then the external rewrite table. -/
def rewriteJsonText (cfg : RelCfg) (children : List TNode) (data : String) :
    Except String String :=
  let d := replaceChildUrls cfg.savePath children data.data
  let d := subStupidF cfg.repoList (d.length + 1) d
  let d := subEmailF (d.length + 1) d
  let d := applyMapping cfg.mapping d
  applyExternalRewrites cfg.externals (String.mk d)

/-! ## Auxiliary notions used by the theorems -/

/-- Two tree nodes agreeing on every field except (possibly) their children. -/
def shallowEq (a b : TNode) : Prop :=
  a.url = b.url ∧ a.rewrittenUrl = b.rewrittenUrl ∧ a.endpointPath = b.endpointPath ∧
  a.alreadyProcessed = b.alreadyProcessed ∧ a.viaNetwork = b.viaNetwork

/-- `ws` is `vs0` with element-internal (children-only) modifications plus any
number of appended nodes. -/
def extendsSh (vs0 ws : List TNode) : Prop :=
  ∃ vs zs, ws = vs ++ zs ∧ List.Forall₂ shallowEq vs vs0

/-- Specification of a recursive crawl step as seen from its caller: on an
invalid tree address it leaves tree and location alone; on a valid address it
restores the location and transforms the sibling list at the address by
element-internal modifications plus appends. -/
def RecOK (rec : String → CrawlState → CrawlState) : Prop :=
  (∀ u t, subForest t.tree t.loc.dropLast = none →
     (rec u t).tree = t.tree ∧ (rec u t).loc = t.loc) ∧
  (∀ u t ws, subForest t.tree t.loc.dropLast = some ws →
     (rec u t).loc = t.loc ∧
     ∃ ws', (rec u t).tree = setSub t.tree t.loc.dropLast ws' ∧ extendsSh ws ws')

/-- The invariant maintained across the discovery steps of one
`get_and_save_json` body: the location is one level below `L`, and the
sibling list at `L` extends the reference list `REF` within the base tree
`T0`. -/
def StepInv (T0 : List TNode) (L : List Nat) (REF : List TNode)
    (t' : CrawlState) : Prop :=
  (∃ k, t'.loc = L ++ [k]) ∧
  ∃ ws, t'.tree = setSub T0 L ws ∧ extendsSh REF ws

/-- The no-op variant of the step invariant: location one level below `L`,
tree untouched (used when `L` is not a valid address of the tree). -/
def NopInv (T0 : List TNode) (L : List Nat) (t' : CrawlState) : Prop :=
  (∃ k, t'.loc = L ++ [k]) ∧ t'.tree = T0

/-- The storage path computed by `get_and_save_json` for a raw URL. -/
def storagePathOfUrl (cfg : Cfg) (rw : List RewriteRule) (baseUrl : String) : String :=
  let ep := fullUrlToQuery baseUrl
  let pr := rewriteUrl (normEndpoint ep.1) ep.2 rw
  endpointPathOf cfg.savePath pr.1 pr.2

/-- The rewritten URL computed by `get_and_save_json` for a raw URL. -/
def rewrittenUrlOf (rw : List RewriteRule) (baseUrl : String) : String :=
  let ep := fullUrlToQuery baseUrl
  let pr := rewriteUrl (normEndpoint ep.1) ep.2 rw
  let encoded := urlencodeP pr.2
  bitbucketApiUrl ++ pr.1 ++ (if encoded = "" then "" else "?" ++ encoded)

/-- Parent-to-child step in a placed comment list: `a`'s declared parent id is
`b`'s id. -/
def childStep (cs : List PyComment) (a b : Nat) : Prop :=
  ((cs.get? a).bind PyComment.parent) = some (idOf cs b)

/-- `a` is a proper descendant of `b` (transitive closure of `childStep`). -/
def descends (cs : List PyComment) : Nat → Nat → Prop :=
  Relation.TransGen (childStep cs)

/-- Parent-to-child step restricted to placed comments: `a` is placed and
declares `b`'s id as its parent. -/
def olink (cs : List PyComment) (order : List Nat) (a b : Nat) : Prop :=
  a ∈ order ∧ childStep cs a b

/-- `a` is a proper descendant of `b` along placed comments. -/
def odesc (cs : List PyComment) (order : List Nat) : Nat → Nat → Prop :=
  Relation.TransGen (olink cs order)

/-- The indices emitted by flattening the fuelled subtree list built for the
placed comment with id `pid`. -/
def emitF (cs : List PyComment) (order : List Nat) : Nat → Nat → List Nat
  | 0, _ => []
  | f + 1, pid =>
    (kidsOf cs order pid).flatMap
      (fun k => k :: emitF cs order f (idOf cs k))

/-- The indices emitted by flattening the whole built forest. -/
def emitAll (cs : List PyComment) (order : List Nat) : List Nat :=
  (rootsOf cs order).flatMap
    (fun r => r :: emitF cs order order.length (idOf cs r))

/-- Soundness invariant of the placement loop: elements are appended one at a
time, are fresh, index a real comment, and have their declared parent already
placed. -/
inductive GoodOrder (cs : List PyComment) : List Nat → Prop
  | nil : GoodOrder cs []
  | snoc (done : List Nat) (j : Nat) (hg : GoodOrder cs done) (hnew : j ∉ done)
      (hlt : j < cs.length)
      (hpar : ∀ pid, ((cs.get? j).bind PyComment.parent) = some pid →
        pid ∈ placedIds cs done) :
      GoodOrder cs (done ++ [j])

/-! ## Concrete scenarios used by counterexamples and witnesses -/

def exUrl1 : String := "https://api.bitbucket.org/2.0/repositories/o/r"

def exUrl2 : String := "https://api.bitbucket.org/2.0/repositories/o/r?page=2"

def exCfg : Cfg := ⟨"o", "r", "raw"⟩

/-- A page body whose only content is a `next` link to `exUrl2`. -/
def exJson1 : JVal := JVal.jobj [("next", JVal.jstr exUrl2)]

/-- Oracle serving `exUrl1` (with a `next` link) and `exUrl2` (empty object). -/
def exOracleFresh : Oracle := fun url =>
  if url = exUrl1 then NetResp.mk 200 (String.mk (dumpJ exJson1)) (some exJson1)
  else if url = exUrl2 then
    NetResp.mk 200 (String.mk (dumpJ (JVal.jobj []))) (some (JVal.jobj []))
  else NetResp.mk 404 "" none

/-- Oracle serving only `exUrl2` (used when `exUrl1`'s file pre-exists). -/
def exOracleResume : Oracle := fun url =>
  if url = exUrl2 then
    NetResp.mk 200 (String.mk (dumpJ (JVal.jobj []))) (some (JVal.jobj []))
  else NetResp.mk 404 "" none

/-- The state at the start of a crawl: `__init__` sets
`current_tree_location = ()` (line 1215) and then calls `tree_new_level()`
(line 1217), so the root call enters with location `(0,)`. -/
def exState0 : CrawlState := ⟨[], ⟨0, [], []⟩, [], [0], 0, 0, 0, []⟩

/-- Like `exState0` but with `exUrl1`'s storage path already on disk. -/
def exStateResume : CrawlState :=
  ⟨[(endpointPathOf "raw" "repositories/o/r" [], FileContent.fjson exJson1)],
   ⟨0, [], []⟩, [], [0], 0, 0, 0, []⟩

/-- Fresh crawl of `exUrl1`: the continuation page is discovered. -/
def exRunFresh : CrawlState := gasj exOracleFresh exCfg 5 exUrl1 [] [] exState0

/-- Resumed crawl of `exUrl1` whose file already exists on disk. -/
def exRunResume : CrawlState := gasj exOracleResume exCfg 5 exUrl1 [] [] exStateResume

/-- A mid-crawl state as after the root call appended its node and pushed a
level: one node at the top, location `[0, 0]`. -/
def exStepState : CrawlState :=
  ⟨[], ⟨0, [], []⟩, [TNode.mk "seed" "seed" "p0" false false []],
   [0, 0], 0, 0, 0, []⟩

/-- A state whose dummy cache has already served `exUrl1`'s storage path once
in this run, and whose file store holds that path. -/
def exDupState : CrawlState :=
  ⟨[(storagePathOfUrl exCfg [] exUrl1, FileContent.fjson (JVal.jobj []))],
   (dummyConstruct (storagePathOfUrl exCfg [] exUrl1) ⟨0, [], []⟩).2,
   [], [0], 0, 0, 0, []⟩

/-- Concrete scenario 3 (two comments). -/
def exComments2 : List PyComment := [⟨1, none⟩, ⟨2, some 1⟩]

/-- A thread where a child precedes its own parent in the flat list:
index 0 = id 10 (child of 1), 1 = id 1 (root), 2 = id 2 (child of 1),
3 = id 3 (child of 10), 4 = id 4 (child of 2). -/
def exComments5 : List PyComment :=
  [⟨10, some 1⟩, ⟨1, none⟩, ⟨2, some 1⟩, ⟨3, some 10⟩, ⟨4, some 2⟩]

/-- A JSON body holding the plain quoted versioned API URL of `acme/widget`. -/
def exBodyPlain : String :=
  "\x7b\"x\": \"https://api.bitbucket.org/2.0/repositories/acme/widget\"\x7d"

/-- A JSON body holding the escaped-quoted malformed (unversioned) API URL. -/
def exBodyEscaped : String :=
  "\x7b\"html\": \"<a href=\\\"https://api.bitbucket.org/acme/widget\\\">x</a>\"\x7d"

/-- `exBodyEscaped` after the in-archive anchor rewrite. -/
def exBodyEscapedOut : String :=
  "\x7b\"html\": \"<a href=\\\"#!/acme/widget\\\">x</a>\"\x7d"

/-- A JSON body with an escaped-quoted bare URL of a repository that is not
being archived. -/
def exBodyOther : String :=
  "\x7b\"h\": \"<a href=\\\"https://api.bitbucket.org/other/repo\\\">x</a>\"\x7d"

/-- `exBodyOther` after redirection to the public host. -/
def exBodyOtherOut : String :=
  "\x7b\"h\": \"<a href=\\\"https://bitbucket.org/other/repo\\\">x</a>\"\x7d"

/-- Link Rewriter configuration with `acme/widget` archived and no external
rewrite table. -/
def exRelCfg : RelCfg := ⟨"raw", [("acme", "widget")], ["acme/widget"], []⟩

/-! ## Association list lemmas -/

theorem alookup_aset_self {κ β : Type} [DecidableEq κ] (k : κ) (v : β) :
    ∀ l : List (κ × β), alookup k (aset k v l) = some v := by
  intro l
  induction l with
  | nil => simp [aset, alookup]
  | cons hd tl ih =>
    by_cases h : hd.1 = k
    · cases hd; simp_all [aset, alookup]
    · cases hd; simp_all [aset, alookup]

theorem alookup_append_of_none {κ β : Type} [DecidableEq κ] (k : κ)
    {l1 : List (κ × β)} (l2 : List (κ × β)) (h : alookup k l1 = none) :
    alookup k (l1 ++ l2) = alookup k l2 := by
  induction l1 with
  | nil => simp
  | cons hd tl ih =>
    cases hd with
    | mk k' v =>
      by_cases hk : k' = k
      · simp [alookup, hk] at h
      · simp only [alookup, hk, if_neg hk] at h ⊢
        simpa [alookup, hk] using ih h

theorem aset_of_none {κ β : Type} [DecidableEq κ] (k : κ) (v : β)
    {l : List (κ × β)} (h : alookup k l = none) : aset k v l = l ++ [(k, v)] := by
  induction l with
  | nil => simp [aset]
  | cons hd tl ih =>
    cases hd with
    | mk k' w =>
      by_cases hk : k' = k
      · simp [alookup, hk] at h
      · simp only [alookup, hk, if_neg hk] at h
        simp [aset, hk, ih h]

/-! ## Crawl-tree algebra -/

theorem withChildren_children (t : TNode) (c : List TNode) :
    (t.withChildren c).children = c := by cases t; rfl

theorem withChildren_self (t : TNode) : t.withChildren t.children = t := by
  cases t; rfl

theorem shallowEq_refl (t : TNode) : shallowEq t t := ⟨rfl, rfl, rfl, rfl, rfl⟩

theorem shallowEq_trans {a b c : TNode} (h1 : shallowEq a b) (h2 : shallowEq b c) :
    shallowEq a c := by
  obtain ⟨u1, r1, p1, q1, v1⟩ := h1
  obtain ⟨u2, r2, p2, q2, v2⟩ := h2
  exact ⟨u1.trans u2, r1.trans r2, p1.trans p2, q1.trans q2, v1.trans v2⟩

theorem shallowEq_withChildren (t : TNode) (c : List TNode) :
    shallowEq (t.withChildren c) t := by
  cases t; exact ⟨rfl, rfl, rfl, rfl, rfl⟩

theorem forall2_shallow_refl (l : List TNode) : List.Forall₂ shallowEq l l :=
  (List.forall₂_same).2 (fun t _ => shallowEq_refl t)

theorem forall2_shallow_trans :
    ∀ {a b c : List TNode}, List.Forall₂ shallowEq a b → List.Forall₂ shallowEq b c →
      List.Forall₂ shallowEq a c := by
  intro a b c h1 h2
  induction h2 generalizing a with
  | nil => cases h1; exact List.Forall₂.nil
  | cons hbc _ ih =>
    cases h1 with
    | cons hab htl => exact List.Forall₂.cons (shallowEq_trans hab hbc) (ih htl)

/-- Split a `Forall₂` along an append on the right. -/
theorem forall2_split {R : TNode → TNode → Prop} :
    ∀ {xs ys zs : List TNode}, List.Forall₂ R xs (ys ++ zs) →
      ∃ as bs, xs = as ++ bs ∧ List.Forall₂ R as ys ∧ List.Forall₂ R bs zs := by
  intro xs ys
  induction ys generalizing xs with
  | nil => intro zs h; exact ⟨[], xs, rfl, List.Forall₂.nil, h⟩
  | cons y ys ih =>
    intro zs h
    cases h with
    | cons hxy htl =>
      obtain ⟨as, bs, rfl, h1, h2⟩ := ih htl
      exact ⟨_ :: as, bs, rfl, List.Forall₂.cons hxy h1, h2⟩

theorem extendsSh_refl (vs : List TNode) : extendsSh vs vs :=
  ⟨vs, [], by simp, forall2_shallow_refl vs⟩

theorem extendsSh_append (vs0 ws zs : List TNode) (h : extendsSh vs0 ws) :
    extendsSh vs0 (ws ++ zs) := by
  obtain ⟨vs, zs0, rfl, hf⟩ := h
  exact ⟨vs, zs0 ++ zs, by simp, hf⟩

theorem extendsSh_trans {vs0 ws ws' : List TNode}
    (h1 : extendsSh vs0 ws) (h2 : extendsSh ws ws') : extendsSh vs0 ws' := by
  obtain ⟨vs, zs, rfl, hf⟩ := h1
  obtain ⟨vs', zs', rfl, hf'⟩ := h2
  obtain ⟨as, bs, rfl, ha, _⟩ := forall2_split hf'
  exact ⟨as, bs ++ zs', by simp, forall2_shallow_trans ha hf⟩

theorem forall2_shallow_of_forall2_extends {vs0 ws : List TNode}
    (h : List.Forall₂ shallowEq ws vs0) : extendsSh vs0 ws :=
  ⟨ws, [], by simp, h⟩

/-! ### `modIdx` -/

theorem modIdx_get_none (f : TNode → TNode) :
    ∀ (ts : List TNode) (i : Nat), ts.get? i = none → modIdx f ts i = ts := by
  intro ts
  induction ts with
  | nil => intro i _; rfl
  | cons t ts ih =>
    intro i h
    cases i with
    | zero => simp at h
    | succ i => simpa [modIdx] using ih i (by simpa using h)

theorem modIdx_get_self (f : TNode → TNode) :
    ∀ (ts : List TNode) (i : Nat) (t : TNode), ts.get? i = some t →
      (modIdx f ts i).get? i = some (f t) := by
  intro ts
  induction ts with
  | nil => intro i t h; simp at h
  | cons hd ts ih =>
    intro i t h
    cases i with
    | zero => simp at h; simp [modIdx, h]
    | succ i => simpa [modIdx] using ih i t (by simpa using h)

theorem modIdx_congr_at (f g : TNode → TNode) :
    ∀ (ts : List TNode) (i : Nat) (t : TNode), ts.get? i = some t → f t = g t →
      modIdx f ts i = modIdx g ts i := by
  intro ts
  induction ts with
  | nil => intro i t h _; simp at h
  | cons hd ts ih =>
    intro i t h hfg
    cases i with
    | zero => simp at h; simp [modIdx, h, hfg]
    | succ i => simpa [modIdx] using ih i t (by simpa using h) hfg

theorem modIdx_modIdx (f g : TNode → TNode) :
    ∀ (ts : List TNode) (i : Nat),
      modIdx g (modIdx f ts i) i = modIdx (fun t => g (f t)) ts i := by
  intro ts
  induction ts with
  | nil => intro i; rfl
  | cons hd ts ih =>
    intro i
    cases i with
    | zero => simp [modIdx]
    | succ i => simp [modIdx, ih i]

theorem forall2_shallow_modIdx (f : TNode → TNode)
    (hf : ∀ t, shallowEq (f t) t) :
    ∀ (ts : List TNode) (i : Nat), List.Forall₂ shallowEq (modIdx f ts i) ts := by
  intro ts
  induction ts with
  | nil => intro i; exact List.Forall₂.nil
  | cons hd ts ih =>
    intro i
    cases i with
    | zero => exact List.Forall₂.cons (hf hd) (forall2_shallow_refl ts)
    | succ i => exact List.Forall₂.cons (shallowEq_refl hd) (ih i)

/-! ### `subForest` / `setSub` -/

theorem subForest_append :
    ∀ (A B : List Nat) (ts : List TNode),
      subForest ts (A ++ B)
        = (subForest ts A).bind (fun us => subForest us B) := by
  intro A
  induction A with
  | nil => intro B ts; rfl
  | cons i A ih =>
    intro B ts
    show subForest ts (i :: (A ++ B)) = _
    simp only [subForest]
    cases h : ts.get? i with
    | none => rfl
    | some t => exact ih B t.children

theorem subForest_valid_setSub :
    ∀ (A : List Nat) (ts us ys : List TNode), subForest ts A = some us →
      subForest (setSub ts A ys) A = some ys := by
  intro A
  induction A with
  | nil => intro ts us ys _; rfl
  | cons i A ih =>
    intro ts us ys h
    simp only [subForest] at h
    cases hg : ts.get? i with
    | none => rw [hg] at h; simp at h
    | some t =>
      rw [hg] at h
      have hself := modIdx_get_self
        (fun t => t.withChildren (setSub t.children A ys)) ts i t hg
      simp only [setSub, subForest, hself, withChildren_children]
      exact ih t.children us ys h

theorem setSub_self :
    ∀ (A : List Nat) (ts us : List TNode), subForest ts A = some us →
      setSub ts A us = ts := by
  intro A
  induction A with
  | nil => intro ts us h; simp only [subForest] at h; cases h; rfl
  | cons i A ih =>
    intro ts us h
    simp only [subForest] at h
    cases hg : ts.get? i with
    | none => rw [hg] at h; simp at h
    | some t =>
      rw [hg] at h
      have : (fun t' => t'.withChildren (setSub t'.children A us)) t = id t := by
        simp [ih t.children us h, withChildren_self]
      simp only [setSub]
      rw [modIdx_congr_at _ id ts i t hg this]
      have : ∀ ts' i', modIdx id ts' i' = ts' := by
        intro ts'
        induction ts' with
        | nil => intro i'; rfl
        | cons a b ihh =>
          intro i'
          cases i' with
          | zero => simp [modIdx]
          | succ i' => simp [modIdx, ihh i']
      exact this ts i

theorem setSub_invalid :
    ∀ (A : List Nat) (ts ys : List TNode), subForest ts A = none →
      setSub ts A ys = ts := by
  intro A
  induction A with
  | nil => intro ts ys h; simp [subForest] at h
  | cons i A ih =>
    intro ts ys h
    simp only [subForest] at h
    cases hg : ts.get? i with
    | none => simp only [setSub]; exact modIdx_get_none _ ts i hg
    | some t =>
      rw [hg] at h
      have : (fun t' => t'.withChildren (setSub t'.children A ys)) t = id t := by
        simp [ih t.children ys h, withChildren_self]
      simp only [setSub]
      rw [modIdx_congr_at _ id ts i t hg this]
      have : ∀ ts' i', modIdx id ts' i' = ts' := by
        intro ts'
        induction ts' with
        | nil => intro i'; rfl
        | cons a b ihh =>
          intro i'
          cases i' with
          | zero => simp [modIdx]
          | succ i' => simp [modIdx, ihh i']
      exact this ts i

theorem setSub_setSub :
    ∀ (A : List Nat) (ts us xs ys : List TNode), subForest ts A = some us →
      setSub (setSub ts A xs) A ys = setSub ts A ys := by
  intro A
  induction A with
  | nil => intro ts us xs ys _; rfl
  | cons i A ih =>
    intro ts us xs ys h
    simp only [subForest] at h
    cases hg : ts.get? i with
    | none => rw [hg] at h; simp at h
    | some t =>
      rw [hg] at h
      simp only [setSub, modIdx_modIdx]
      refine modIdx_congr_at _ _ ts i t hg ?_
      cases t with
      | mk u r p a v c =>
        simp only [TNode.withChildren, TNode.children]
        congr 1
        exact ih c us xs ys h

theorem setSub_append_addr :
    ∀ (A B : List Nat) (ts us ys : List TNode), subForest ts A = some us →
      setSub ts (A ++ B) ys = setSub ts A (setSub us B ys) := by
  intro A
  induction A with
  | nil => intro B ts us ys h; simp only [subForest] at h; cases h; rfl
  | cons i A ih =>
    intro B ts us ys h
    simp only [subForest] at h
    cases hg : ts.get? i with
    | none => rw [hg] at h; simp at h
    | some t =>
      rw [hg] at h
      show setSub ts (i :: (A ++ B)) ys = _
      simp only [setSub]
      refine modIdx_congr_at _ _ ts i t hg ?_
      cases t with
      | mk u r p a v c =>
        simp only [TNode.withChildren, TNode.children]
        congr 1
        exact ih B c us ys h

theorem subForest_setSub_deep (A B : List Nat) (ts us ys : List TNode)
    (h : subForest ts A = some us) :
    subForest (setSub ts A ys) (A ++ B) = subForest ys B := by
  rw [subForest_append, subForest_valid_setSub A ts us ys h]
  rfl

theorem appendAt_valid (ts : List TNode) (A : List Nat) (us : List TNode)
    (x : TNode) (h : subForest ts A = some us) :
    appendAt ts A x = setSub ts A (us ++ [x]) := by
  simp [appendAt, h]

theorem appendAt_invalid (ts : List TNode) (A : List Nat) (x : TNode)
    (h : subForest ts A = none) : appendAt ts A x = ts := by
  simp [appendAt, h]

theorem markLastAt_valid (ts : List TNode) (A : List Nat) (us : List TNode)
    (h : subForest ts A = some us) :
    markLastAt ts A = setSub ts A (markLastAP us) := by
  simp [markLastAt, h]

theorem markLastAt_invalid (ts : List TNode) (A : List Nat)
    (h : subForest ts A = none) : markLastAt ts A = ts := by
  simp [markLastAt, h]

theorem setLastViaAt_valid (ts : List TNode) (A : List Nat) (us : List TNode)
    (h : subForest ts A = some us) :
    setLastViaAt ts A = setSub ts A (setLastVia us) := by
  simp [setLastViaAt, h]

theorem setLastViaAt_invalid (ts : List TNode) (A : List Nat)
    (h : subForest ts A = none) : setLastViaAt ts A = ts := by
  simp [setLastViaAt, h]

theorem markLastAP_concat :
    ∀ (us : List TNode) (x : TNode), markLastAP (us ++ [x]) = us ++ [markAPNode x]
  | [], x => rfl
  | t :: us, x => by
    cases us with
    | nil => rfl
    | cons a b =>
      show t :: markLastAP ((a :: b) ++ [x]) = t :: ((a :: b) ++ [markAPNode x])
      rw [markLastAP_concat (a :: b) x]

theorem setLastVia_concat :
    ∀ (us : List TNode) (x : TNode), setLastVia (us ++ [x]) = us ++ [setViaNode x]
  | [], x => rfl
  | t :: us, x => by
    cases us with
    | nil => rfl
    | cons a b =>
      show t :: setLastVia ((a :: b) ++ [x]) = t :: ((a :: b) ++ [setViaNode x])
      rw [setLastVia_concat (a :: b) x]

theorem markAPNode_url (t : TNode) : (markAPNode t).url = t.url := by cases t; rfl

theorem setViaNode_url (t : TNode) : (setViaNode t).url = t.url := by cases t; rfl

theorem setViaNode_ap (t : TNode) :
    (setViaNode t).alreadyProcessed = t.alreadyProcessed := by cases t; rfl

theorem incLast_concat (L : List Nat) (k : Nat) :
    incLast (L ++ [k]) = L ++ [k + 1] := by
  simp [incLast]

/-! ## Crawler shape lemmas -/

theorem foldl_inv {α : Type} (P : CrawlState → Prop) (f : CrawlState → α → CrawlState)
    (hf : ∀ t a, P t → P (f t a)) :
    ∀ (l : List α) (t : CrawlState), P t → P (l.foldl f t) := by
  intro l
  induction l with
  | nil => intro t h; exact h
  | cons a l ih => intro t h; exact ih (f t a) (hf t a h)

/-- `download_file` as a crawl step: no-op on an invalid address; appends one
node (possibly already marked processed) on a valid address. -/
theorem downloadFile_recOK (O : Oracle) (cfg : Cfg) :
    RecOK (fun u t => downloadFile O cfg u t) := by
  constructor
  · intro u t h
    simp only [downloadFile]
    rw [appendAt_invalid _ _ _ h]
    by_cases hc : (alookup (downloadPathOf cfg u) t.fs).isSome
    · rw [if_pos hc]
      exact ⟨markLastAt_invalid _ _ h, rfl⟩
    · rw [if_neg hc]
      exact ⟨setLastViaAt_invalid _ _ h, rfl⟩
  · intro u t ws h
    simp only [downloadFile]
    rw [appendAt_valid _ _ _ _ h]
    set node := TNode.mk u u (downloadPathOf cfg u) false false [] with hnode
    have hsub : subForest (setSub t.tree t.loc.dropLast (ws ++ [node]))
        t.loc.dropLast = some (ws ++ [node]) :=
      subForest_valid_setSub _ _ _ _ h
    by_cases hc : (alookup (downloadPathOf cfg u) t.fs).isSome
    · rw [if_pos hc]
      refine ⟨rfl, ws ++ [markAPNode node], ?_, ?_⟩
      · show markLastAt (setSub t.tree t.loc.dropLast (ws ++ [node]))
            t.loc.dropLast = _
        rw [markLastAt_valid _ _ _ hsub, markLastAP_concat,
          setSub_setSub _ _ _ _ _ h]
      · exact extendsSh_append _ _ _ (extendsSh_refl ws)
    · rw [if_neg hc]
      refine ⟨rfl, ws ++ [setViaNode node], ?_, ?_⟩
      · show setLastViaAt (setSub t.tree t.loc.dropLast (ws ++ [node]))
            t.loc.dropLast = _
        rw [setLastViaAt_valid _ _ _ hsub, setLastVia_concat,
          setSub_setSub _ _ _ _ _ h]
      · exact extendsSh_append _ _ _ (extendsSh_refl ws)

/-- One `crawl step followed by tree_increment_level` preserves the handle
invariant: location of the form `L ++ [k]`, tree a modification of the base
forest at `L` that extends the reference list. -/
theorem recStep_Q (g : String → CrawlState → CrawlState) (hg : RecOK g)
    (T0 : List TNode) (L : List Nat) (vs0 REF : List TNode)
    (hT : subForest T0 L = some vs0) (u : String) (t' : CrawlState)
    (hloc : ∃ k, t'.loc = L ++ [k])
    (htree : ∃ ws, t'.tree = setSub T0 L ws ∧ extendsSh REF ws) :
    (∃ k, ({ g u t' with loc := incLast (g u t').loc } : CrawlState).loc = L ++ [k]) ∧
    ∃ ws, ({ g u t' with loc := incLast (g u t').loc } : CrawlState).tree
        = setSub T0 L ws ∧ extendsSh REF ws := by
  obtain ⟨k, hk⟩ := hloc
  obtain ⟨ws, hw, he⟩ := htree
  have hdrop : t'.loc.dropLast = L := by rw [hk]; simp
  have hsub : subForest t'.tree t'.loc.dropLast = some ws := by
    rw [hdrop, hw]; exact subForest_valid_setSub _ _ _ _ hT
  obtain ⟨hloc', ws', htr, hext⟩ := hg.2 u t' ws hsub
  refine ⟨⟨k + 1, ?_⟩, ws', ?_, extendsSh_trans he hext⟩
  · show incLast (g u t').loc = L ++ [k + 1]
    rw [hloc', hk, incLast_concat]
  · show (g u t').tree = setSub T0 L ws'
    rw [htr, hdrop, hw, setSub_setSub _ _ _ _ _ hT]

/-- A crawl step at an invalid base address leaves the tree alone and keeps
the location shape. -/
theorem recStep_nop (g : String → CrawlState → CrawlState) (hg : RecOK g)
    (T0 : List TNode) (L : List Nat) (hT : subForest T0 L = none)
    (u : String) (t' : CrawlState)
    (hloc : ∃ k, t'.loc = L ++ [k]) (htree : t'.tree = T0) :
    (∃ k, ({ g u t' with loc := incLast (g u t').loc } : CrawlState).loc = L ++ [k]) ∧
    ({ g u t' with loc := incLast (g u t').loc } : CrawlState).tree = T0 := by
  obtain ⟨k, hk⟩ := hloc
  have hdrop : t'.loc.dropLast = L := by rw [hk]; simp
  have hsub : subForest t'.tree t'.loc.dropLast = none := by
    rw [hdrop, htree]; exact hT
  obtain ⟨htr, hloc'⟩ := hg.1 u t' hsub
  refine ⟨⟨k + 1, ?_⟩, by simpa [htree] using htr⟩
  show incLast (g u t').loc = L ++ [k + 1]
  rw [hloc', hk, incLast_concat]

/-- `crawlStep` preserves the step invariant when the inner call is `RecOK`
and the base address is valid. -/
theorem crawlStep_inv (g : String → CrawlState → CrawlState) (hg : RecOK g)
    (T0 : List TNode) (L : List Nat) (vs0 REF : List TNode)
    (hT : subForest T0 L = some vs0) (u : String) (t' : CrawlState)
    (h : StepInv T0 L REF t') : StepInv T0 L REF (crawlStep g u t') :=
  recStep_Q g hg T0 L vs0 REF hT u t' h.1 h.2

/-- `crawlStep` preserves the no-op invariant on an invalid base address. -/
theorem crawlStep_nop (g : String → CrawlState → CrawlState) (hg : RecOK g)
    (T0 : List TNode) (L : List Nat) (hT : subForest T0 L = none)
    (u : String) (t' : CrawlState)
    (h : NopInv T0 L t') : NopInv T0 L (crawlStep g u t') :=
  recStep_nop g hg T0 L hT u t' h.1 h.2

/-- `refsStep` preserves the step invariant. -/
theorem refsStep_inv (rec : String → CrawlState → CrawlState) (hrec : RecOK rec)
    (cfg : Cfg) (ign : List IgnoreRule)
    (T0 : List TNode) (L : List Nat) (vs0 REF : List TNode)
    (hT : subForest T0 L = some vs0) (t' : CrawlState) (r : String)
    (h : StepInv T0 L REF t') : StepInv T0 L REF (refsStep rec cfg ign t' r) := by
  have hmid : StepInv T0 L REF
      (if isBareIssueRef cfg r then
        crawlStep rec (bbEndpointToFullUrl (r ++ "/changes")) t'
      else t') := by
    by_cases hb : isBareIssueRef cfg r
    · rw [if_pos hb]
      exact crawlStep_inv rec hrec T0 L vs0 REF hT _ t' h
    · rw [if_neg hb]
      exact h
  show StepInv T0 L REF
    (if skipByRules ign r then
      (if isBareIssueRef cfg r then
        crawlStep rec (bbEndpointToFullUrl (r ++ "/changes")) t'
      else t')
    else crawlStep rec (bbEndpointToFullUrl r)
      (if isBareIssueRef cfg r then
        crawlStep rec (bbEndpointToFullUrl (r ++ "/changes")) t'
      else t'))
  by_cases hs : skipByRules ign r
  · rw [if_pos hs]
    exact hmid
  · rw [if_neg hs]
    exact crawlStep_inv rec hrec T0 L vs0 REF hT _ _ hmid

/-- `refsStep` preserves the no-op invariant. -/
theorem refsStep_nop (rec : String → CrawlState → CrawlState) (hrec : RecOK rec)
    (cfg : Cfg) (ign : List IgnoreRule)
    (T0 : List TNode) (L : List Nat) (hT : subForest T0 L = none)
    (t' : CrawlState) (r : String)
    (h : NopInv T0 L t') : NopInv T0 L (refsStep rec cfg ign t' r) := by
  have hmid : NopInv T0 L
      (if isBareIssueRef cfg r then
        crawlStep rec (bbEndpointToFullUrl (r ++ "/changes")) t'
      else t') := by
    by_cases hb : isBareIssueRef cfg r
    · rw [if_pos hb]
      exact crawlStep_nop rec hrec T0 L hT _ t' h
    · rw [if_neg hb]
      exact h
  show NopInv T0 L
    (if skipByRules ign r then
      (if isBareIssueRef cfg r then
        crawlStep rec (bbEndpointToFullUrl (r ++ "/changes")) t'
      else t')
    else crawlStep rec (bbEndpointToFullUrl r)
      (if isBareIssueRef cfg r then
        crawlStep rec (bbEndpointToFullUrl (r ++ "/changes")) t'
      else t'))
  by_cases hs : skipByRules ign r
  · rw [if_pos hs]
    exact hmid
  · rw [if_neg hs]
    exact crawlStep_nop rec hrec T0 L hT _ _ hmid

/-- Popping the location level turns the step invariant into the caller-facing
shape: location restored to `L`, tree a `setSub` at `L` extending `REF`. -/
theorem dropLoc_ok (T0 : List TNode) (L : List Nat) (REF : List TNode)
    (t2 : CrawlState) (h : StepInv T0 L REF t2) :
    ({ t2 with loc := t2.loc.dropLast } : CrawlState).loc = L ∧
    ∃ ws, ({ t2 with loc := t2.loc.dropLast } : CrawlState).tree
        = setSub T0 L ws ∧ extendsSh REF ws := by
  obtain ⟨⟨k, hk⟩, ws, hw, he⟩ := h
  exact ⟨by rw [hk]; simp, ws, hw, he⟩

/-- Popping the location level under the no-op invariant. -/
theorem dropLoc_nop (T0 : List TNode) (L : List Nat)
    (t2 : CrawlState) (h : NopInv T0 L t2) :
    ({ t2 with loc := t2.loc.dropLast } : CrawlState).loc = L ∧
    ({ t2 with loc := t2.loc.dropLast } : CrawlState).tree = T0 := by
  obtain ⟨⟨k, hk⟩, hw⟩ := h
  exact ⟨by rw [hk]; simp, hw⟩

/-- The discovery body of `get_and_save_json` seen from the caller, valid
address: the location returns to `L` and the sibling forest at `L` is only
modified internally and extended. -/
theorem gasjBody_ok (rec : String → CrawlState → CrawlState) (O : Oracle)
    (cfg : Cfg) (ign : List IgnoreRule) (hrec : RecOK rec)
    (text : String) (next : Option String)
    (T0 : List TNode) (L : List Nat) (vs0 REF : List TNode)
    (hT : subForest T0 L = some vs0)
    (t1 : CrawlState) (h1 : StepInv T0 L REF t1) :
    (gasjBody rec O cfg ign text next t1).loc = L ∧
    ∃ ws, (gasjBody rec O cfg ign text next t1).tree = setSub T0 L ws ∧
      extendsSh REF ws := by
  have h2 : StepInv T0 L REF
      (match next with
       | some nurl => crawlStep rec nurl t1
       | none => t1) := by
    cases next with
    | some nurl => exact crawlStep_inv rec hrec T0 L vs0 REF hT nurl t1 h1
    | none => exact h1
  have h3 := foldl_inv (StepInv T0 L REF)
    (fun s u => crawlStep (downloadFile O cfg) u s)
    (fun t' u ht' =>
      crawlStep_inv (fun u t => downloadFile O cfg u t)
        (downloadFile_recOK O cfg) T0 L vs0 REF hT u t' ht')
    (fileDownloadUrls cfg text) _ h2
  have h4 := foldl_inv (StepInv T0 L REF) (refsStep rec cfg ign)
    (fun t' r ht' => refsStep_inv rec hrec cfg ign T0 L vs0 REF hT t' r ht')
    (progFindall text) _ h3
  exact dropLoc_ok T0 L REF _ h4

/-- The discovery body on an invalid address: location back to `L`, tree
untouched. -/
theorem gasjBody_nop (rec : String → CrawlState → CrawlState) (O : Oracle)
    (cfg : Cfg) (ign : List IgnoreRule) (hrec : RecOK rec)
    (text : String) (next : Option String)
    (T0 : List TNode) (L : List Nat) (hT : subForest T0 L = none)
    (t1 : CrawlState) (h1 : NopInv T0 L t1) :
    (gasjBody rec O cfg ign text next t1).loc = L ∧
    (gasjBody rec O cfg ign text next t1).tree = T0 := by
  have h2 : NopInv T0 L
      (match next with
       | some nurl => crawlStep rec nurl t1
       | none => t1) := by
    cases next with
    | some nurl => exact crawlStep_nop rec hrec T0 L hT nurl t1 h1
    | none => exact h1
  have h3 := foldl_inv (NopInv T0 L)
    (fun s u => crawlStep (downloadFile O cfg) u s)
    (fun t' u ht' =>
      crawlStep_nop (fun u t => downloadFile O cfg u t)
        (downloadFile_recOK O cfg) T0 L hT u t' ht')
    (fileDownloadUrls cfg text) _ h2
  have h4 := foldl_inv (NopInv T0 L) (refsStep rec cfg ign)
    (fun t' r ht' => refsStep_nop rec hrec cfg ign T0 L hT t' r ht')
    (progFindall text) _ h3
  exact dropLoc_nop T0 L _ h4

/-- `gasjHandle` seen from the caller, valid current address. -/
theorem gasjHandle_ok (rec : String → CrawlState → CrawlState) (O : Oracle)
    (cfg : Cfg) (ign : List IgnoreRule) (epath : String) (resp : NetResp)
    (hrec : RecOK rec) (t : CrawlState) (cs : List TNode)
    (h : subForest t.tree t.loc = some cs) :
    (gasjHandle rec O cfg ign epath resp t).loc = t.loc ∧
    ∃ ws, (gasjHandle rec O cfg ign epath resp t).tree = setSub t.tree t.loc ws ∧
      extendsSh cs ws := by
  by_cases h200 : resp.status = 200
  · cases hj : resp.json with
    | none =>
      simp only [gasjHandle]
      rw [if_pos h200, hj]
      exact ⟨rfl, cs, (setSub_self _ _ _ h).symm, extendsSh_refl cs⟩
    | some j =>
      simp only [gasjHandle]
      rw [if_pos h200, hj]
      exact gasjBody_ok rec O cfg ign hrec resp.text (jNext j)
        t.tree t.loc cs cs h
        ({ { t with fs := aset epath (FileContent.fjson j) t.fs } with
          loc := t.loc ++ [0] } : CrawlState)
        ⟨⟨0, rfl⟩, cs, (setSub_self _ _ _ h).symm, extendsSh_refl cs⟩
  · simp only [gasjHandle]
    rw [if_neg h200]
    exact ⟨rfl, cs, (setSub_self _ _ _ h).symm, extendsSh_refl cs⟩

/-- `gasjHandle` seen from the caller, invalid current address: tree and
location are untouched. -/
theorem gasjHandle_nop (rec : String → CrawlState → CrawlState) (O : Oracle)
    (cfg : Cfg) (ign : List IgnoreRule) (epath : String) (resp : NetResp)
    (hrec : RecOK rec) (t : CrawlState)
    (h : subForest t.tree t.loc = none) :
    (gasjHandle rec O cfg ign epath resp t).loc = t.loc ∧
    (gasjHandle rec O cfg ign epath resp t).tree = t.tree := by
  by_cases h200 : resp.status = 200
  · cases hj : resp.json with
    | none =>
      simp only [gasjHandle]
      rw [if_pos h200, hj]
      exact ⟨rfl, rfl⟩
    | some j =>
      simp only [gasjHandle]
      rw [if_pos h200, hj]
      exact gasjBody_nop rec O cfg ign hrec resp.text (jNext j)
        t.tree t.loc h
        ({ { t with fs := aset epath (FileContent.fjson j) t.fs } with
          loc := t.loc ++ [0] } : CrawlState)
        ⟨⟨0, rfl⟩, rfl⟩
  · simp only [gasjHandle]
    rw [if_neg h200]
    exact ⟨rfl, rfl⟩

/-- Modifying the sibling forest one level below a modification site leaves a
sibling list that is pointwise `shallowEq` to the one put there. -/
theorem setSub_deep_extends (T : List TNode) (dL : List Nat) (k : Nat)
    (ws vs ys : List TNode) (h : subForest T dL = some ws) :
    ∃ zs, setSub (setSub T dL vs) (dL ++ [k]) ys = setSub T dL zs
      ∧ List.Forall₂ shallowEq zs vs := by
  have hv : subForest (setSub T dL vs) dL = some vs :=
    subForest_valid_setSub dL T ws vs h
  refine ⟨setSub vs [k] ys, ?_, ?_⟩
  · rw [setSub_append_addr dL [k] (setSub T dL vs) vs ys hv,
      setSub_setSub dL T ws vs _ h]
  · show List.Forall₂ shallowEq
      (modIdx (fun n => n.withChildren (setSub n.children [] ys)) vs k) vs
    exact forall2_shallow_modIdx _
      (fun n => shallowEq_withChildren n (setSub n.children [] ys)) vs k

/-- `gasjHandle` on a state with known tree and location, invalid address. -/
theorem gasjHandle_nop_state (rec : String → CrawlState → CrawlState)
    (O : Oracle) (cfg : Cfg) (ign : List IgnoreRule) (epath : String)
    (resp : NetResp) (hrec : RecOK rec) (t3 : CrawlState)
    (T0 : List TNode) (L : List Nat)
    (htr : t3.tree = T0) (hlo : t3.loc = L)
    (h : subForest T0 L = none) :
    (gasjHandle rec O cfg ign epath resp t3).tree = T0 ∧
    (gasjHandle rec O cfg ign epath resp t3).loc = L := by
  obtain ⟨h1, h2⟩ := gasjHandle_nop rec O cfg ign epath resp hrec t3
    (by rw [htr, hlo] at *; exact h)
  exact ⟨h2.trans htr, h1.trans hlo⟩

/-- `gasjHandle` on a state whose tree is a sibling-list replacement at the
level above the current location: the result is again such a replacement,
extending the original sibling list. -/
theorem gasjHandle_from_set (rec : String → CrawlState → CrawlState)
    (O : Oracle) (cfg : Cfg) (ign : List IgnoreRule) (epath : String)
    (resp : NetResp) (hrec : RecOK rec) (t3 : CrawlState)
    (T0 : List TNode) (M : List Nat) (ws vs : List TNode)
    (htr : t3.tree = setSub T0 M.dropLast vs) (hlo : t3.loc = M)
    (h : subForest T0 M.dropLast = some ws) (hext : extendsSh ws vs) :
    (gasjHandle rec O cfg ign epath resp t3).loc = M ∧
    ∃ ws', (gasjHandle rec O cfg ign epath resp t3).tree
        = setSub T0 M.dropLast ws' ∧ extendsSh ws ws' := by
  cases hs : subForest t3.tree t3.loc with
  | none =>
    obtain ⟨h1, h2⟩ := gasjHandle_nop rec O cfg ign epath resp hrec t3 hs
    exact ⟨h1.trans hlo, vs, h2.trans htr, hext⟩
  | some cs =>
    obtain ⟨h1, ws', htr', hext'⟩ :=
      gasjHandle_ok rec O cfg ign epath resp hrec t3 cs hs
    rcases List.eq_nil_or_concat M with hM | ⟨L0, b, hM⟩
    · subst hM
      rw [hlo, htr] at hs
      have hvs : vs = cs := by
        simpa [subForest, setSub] using hs
      rw [hlo, htr] at htr'
      refine ⟨h1.trans hlo, ws', htr', extendsSh_trans hext ?_⟩
      rw [hvs]
      exact hext'
    · have hdl : M.dropLast = L0 := by rw [hM]; simp
      rw [hdl] at h htr
      obtain ⟨zs, hz, hfz⟩ := setSub_deep_extends T0 L0 b ws vs ws' h
      refine ⟨h1.trans hlo, zs, ?_,
        extendsSh_trans hext (forall2_shallow_of_forall2_extends hfz)⟩
      rw [htr', hlo, htr, hdl, hM, List.concat_eq_append, hz]

/-- One full `get_and_save_json` body is a no-op on tree and location when
the parent address is invalid. -/
theorem gasjCore_nop (rec : String → CrawlState → CrawlState) (O : Oracle)
    (cfg : Cfg) (ign : List IgnoreRule) (epath rwb : String) (node : TNode)
    (hrec : RecOK rec) (t : CrawlState)
    (h : subForest t.tree t.loc.dropLast = none) :
    (gasjCore rec O cfg ign epath rwb node t).tree = t.tree ∧
    (gasjCore rec O cfg ign epath rwb node t).loc = t.loc := by
  have hne : t.loc ≠ [] := by
    intro he
    rw [he] at h
    simp [subForest] at h
  obtain ⟨L0, b, hL⟩ := (List.eq_nil_or_concat t.loc).resolve_left hne
  have hdl : t.loc.dropLast = L0 := by rw [hL]; simp
  have hfull : subForest t.tree t.loc = none := by
    rw [hL, List.concat_eq_append, subForest_append]
    rw [hdl] at h
    rw [h]
    rfl
  simp only [gasjCore]
  split
  · split
    · refine ⟨?_, rfl⟩
      show markLastAt (appendAt t.tree t.loc.dropLast node) t.loc.dropLast
          = t.tree
      rw [appendAt_invalid _ _ _ h, markLastAt_invalid _ _ h]
    · have htr : appendAt t.tree t.loc.dropLast node = t.tree :=
        appendAt_invalid _ _ _ h
      exact gasjHandle_nop_state rec O cfg ign epath _ hrec _ t.tree t.loc
        htr rfl hfull
  · have htr : setLastViaAt (appendAt t.tree t.loc.dropLast node)
        t.loc.dropLast = t.tree := by
      rw [appendAt_invalid _ _ _ h, setLastViaAt_invalid _ _ h]
    exact gasjHandle_nop_state rec O cfg ign epath _ hrec _ t.tree t.loc
      htr rfl hfull

/-- One full `get_and_save_json` body on a valid parent address: the location
is restored and the sibling list at the parent address is extended (its
pre-existing members modified at most in their children). -/
theorem gasjCore_ok (rec : String → CrawlState → CrawlState) (O : Oracle)
    (cfg : Cfg) (ign : List IgnoreRule) (epath rwb : String) (node : TNode)
    (hrec : RecOK rec) (t : CrawlState) (ws : List TNode)
    (h : subForest t.tree t.loc.dropLast = some ws) :
    (gasjCore rec O cfg ign epath rwb node t).loc = t.loc ∧
    ∃ ws', (gasjCore rec O cfg ign epath rwb node t).tree
        = setSub t.tree t.loc.dropLast ws' ∧ extendsSh ws ws' := by
  have hsub1 : subForest (setSub t.tree t.loc.dropLast (ws ++ [node]))
      t.loc.dropLast = some (ws ++ [node]) :=
    subForest_valid_setSub _ _ _ _ h
  simp only [gasjCore]
  split
  · split
    · refine ⟨rfl, ws ++ [markAPNode node], ?_,
        extendsSh_append _ _ _ (extendsSh_refl ws)⟩
      show markLastAt (appendAt t.tree t.loc.dropLast node) t.loc.dropLast
          = setSub t.tree t.loc.dropLast (ws ++ [markAPNode node])
      rw [appendAt_valid _ _ _ _ h, markLastAt_valid _ _ _ hsub1,
        markLastAP_concat, setSub_setSub _ _ _ _ _ h]
    · have htr : appendAt t.tree t.loc.dropLast node
          = setSub t.tree t.loc.dropLast (ws ++ [node]) :=
        appendAt_valid _ _ _ _ h
      exact gasjHandle_from_set rec O cfg ign epath _ hrec _ t.tree t.loc
        ws (ws ++ [node]) htr rfl h
        (extendsSh_append _ _ _ (extendsSh_refl ws))
  · have htr : setLastViaAt (appendAt t.tree t.loc.dropLast node)
        t.loc.dropLast = setSub t.tree t.loc.dropLast (ws ++ [setViaNode node]) := by
      rw [appendAt_valid _ _ _ _ h, setLastViaAt_valid _ _ _ hsub1,
        setLastVia_concat, setSub_setSub _ _ _ _ _ h]
    exact gasjHandle_from_set rec O cfg ign epath _ hrec _ t.tree t.loc
      ws (ws ++ [setViaNode node]) htr rfl h
      (extendsSh_append _ _ _ (extendsSh_refl ws))

/-- Unfolding of `gasj` at positive fuel in terms of `gasjCore` and the named
path/URL resolvers. -/
theorem gasj_succ (O : Oracle) (cfg : Cfg) (fuel : Nat) (baseUrl : String)
    (ign : List IgnoreRule) (rws : List RewriteRule) (s : CrawlState) :
    gasj O cfg (fuel + 1) baseUrl ign rws s
      = gasjCore (fun u t => gasj O cfg fuel u ign rws t) O cfg ign
          (storagePathOfUrl cfg rws baseUrl) (rewrittenUrlOf rws baseUrl)
          (TNode.mk baseUrl (rewrittenUrlOf rws baseUrl)
            (storagePathOfUrl cfg rws baseUrl) false false []) s := rfl

/-- Any `gasj` call is a well-behaved crawl step: no-op on tree and location
at an invalid parent address, sibling-list extension at a valid one. -/
theorem gasj_recOK (O : Oracle) (cfg : Cfg) (ign : List IgnoreRule)
    (rws : List RewriteRule) :
    ∀ fuel, RecOK (fun u t => gasj O cfg fuel u ign rws t) := by
  intro fuel
  induction fuel with
  | zero =>
    exact ⟨fun u t _ => ⟨rfl, rfl⟩,
      fun u t ws h => ⟨rfl, ws, (setSub_self _ _ _ h).symm, extendsSh_refl ws⟩⟩
  | succ fuel ih =>
    constructor
    · intro u t h
      show (gasj O cfg (fuel + 1) u ign rws t).tree = t.tree ∧
        (gasj O cfg (fuel + 1) u ign rws t).loc = t.loc
      rw [gasj_succ]
      exact gasjCore_nop _ O cfg ign _ _ _ ih t h
    · intro u t ws h
      show (gasj O cfg (fuel + 1) u ign rws t).loc = t.loc ∧
        ∃ ws', (gasj O cfg (fuel + 1) u ign rws t).tree
            = setSub t.tree t.loc.dropLast ws' ∧ extendsSh ws ws'
      rw [gasj_succ]
      exact gasjCore_ok _ O cfg ign _ _ _ ih t ws h

/-- With a nonempty location, everything `gasjHandle` does to the tree
happens strictly inside the children of the sibling list put at the level
above: that list is modified pointwise (`shallowEq`), never extended. -/
theorem gasjHandle_children_only (rec : String → CrawlState → CrawlState)
    (O : Oracle) (cfg : Cfg) (ign : List IgnoreRule) (epath : String)
    (resp : NetResp) (hrec : RecOK rec) (t3 : CrawlState)
    (T0 : List TNode) (L0 : List Nat) (b : Nat) (ws vs : List TNode)
    (htr : t3.tree = setSub T0 L0 vs) (hlo : t3.loc = L0 ++ [b])
    (h : subForest T0 L0 = some ws) :
    (gasjHandle rec O cfg ign epath resp t3).loc = L0 ++ [b] ∧
    ∃ zs, (gasjHandle rec O cfg ign epath resp t3).tree = setSub T0 L0 zs ∧
      List.Forall₂ shallowEq zs vs := by
  cases hs : subForest t3.tree t3.loc with
  | none =>
    obtain ⟨h1, h2⟩ := gasjHandle_nop rec O cfg ign epath resp hrec t3 hs
    exact ⟨h1.trans hlo, vs, h2.trans htr, forall2_shallow_refl vs⟩
  | some cs =>
    obtain ⟨h1, ws', htr', _⟩ :=
      gasjHandle_ok rec O cfg ign epath resp hrec t3 cs hs
    obtain ⟨zs, hz, hfz⟩ := setSub_deep_extends T0 L0 b ws vs ws' h
    refine ⟨h1.trans hlo, zs, ?_, hfz⟩
    rw [htr', hlo, htr, hz]

/-- One full `get_and_save_json` body with a nonempty entry location appends
exactly one node — carrying this call's URL — to the sibling list at the
level above the entry location; the pre-existing siblings are modified at
most in their children. -/
theorem handle_one_append_aux (rec : String → CrawlState → CrawlState)
    (O : Oracle) (cfg : Cfg) (ign : List IgnoreRule) (epath : String)
    (resp : NetResp) (hrec : RecOK rec) (t3 : CrawlState)
    (T0 : List TNode) (L0 : List Nat) (b : Nat) (ws : List TNode)
    (node' : TNode) (nu : String)
    (htr : t3.tree = setSub T0 L0 (ws ++ [node'])) (hlo : t3.loc = L0 ++ [b])
    (h : subForest T0 L0 = some ws) (hnu : node'.url = nu) :
    (gasjHandle rec O cfg ign epath resp t3).loc = L0 ++ [b] ∧
    ∃ us m, (gasjHandle rec O cfg ign epath resp t3).tree
        = setSub T0 L0 (us ++ [m]) ∧
      List.Forall₂ shallowEq us ws ∧ m.url = nu := by
  obtain ⟨h1, zs, hz, hfz⟩ := gasjHandle_children_only rec O cfg ign epath
    resp hrec t3 T0 L0 b ws (ws ++ [node']) htr hlo h
  obtain ⟨us, ms, hzs, hus, hms⟩ := forall2_split hfz
  cases hms with
  | cons hm hnil =>
    cases hnil
    exact ⟨h1, us, _, by rw [hz, hzs], hus, hm.1.trans hnu⟩

theorem gasjCore_one_append (rec : String → CrawlState → CrawlState)
    (O : Oracle) (cfg : Cfg) (ign : List IgnoreRule) (epath rwb : String)
    (node : TNode) (hrec : RecOK rec) (t : CrawlState) (ws : List TNode)
    (hne : t.loc ≠ [])
    (h : subForest t.tree t.loc.dropLast = some ws) :
    (gasjCore rec O cfg ign epath rwb node t).loc = t.loc ∧
    ∃ us m, (gasjCore rec O cfg ign epath rwb node t).tree
        = setSub t.tree t.loc.dropLast (us ++ [m]) ∧
      List.Forall₂ shallowEq us ws ∧ m.url = node.url := by
  obtain ⟨L0, b, hL⟩ := (List.eq_nil_or_concat t.loc).resolve_left hne
  have hdl : t.loc.dropLast = L0 := by rw [hL]; simp
  have hlo : t.loc = L0 ++ [b] := by rw [hL, List.concat_eq_append]
  have h0 : subForest t.tree L0 = some ws := by rw [hdl] at h; exact h
  rw [hdl, hlo]
  simp only [gasjCore]
  split
  · split
    · refine ⟨?_, ws, markAPNode node, ?_, forall2_shallow_refl ws,
        markAPNode_url node⟩
      · show t.loc = L0 ++ [b]
        exact hlo
      · show markLastAt (appendAt t.tree t.loc.dropLast node) t.loc.dropLast
            = setSub t.tree L0 (ws ++ [markAPNode node])
        rw [hdl, appendAt_valid _ _ _ _ h0, markLastAt_valid _ _ _
          (subForest_valid_setSub _ _ _ _ h0), markLastAP_concat,
          setSub_setSub _ _ _ _ _ h0]
    · apply handle_one_append_aux rec O cfg ign epath _ hrec _ t.tree L0 b
        ws node node.url
      · show appendAt t.tree t.loc.dropLast node
            = setSub t.tree L0 (ws ++ [node])
        rw [hdl]
        exact appendAt_valid _ _ _ _ h0
      · exact hlo
      · exact h0
      · rfl
  · apply handle_one_append_aux rec O cfg ign epath _ hrec _ t.tree L0 b
      ws (setViaNode node) node.url
    · show setLastViaAt (appendAt t.tree t.loc.dropLast node) t.loc.dropLast
          = setSub t.tree L0 (ws ++ [setViaNode node])
      rw [hdl, appendAt_valid _ _ _ _ h0, setLastViaAt_valid _ _ _
        (subForest_valid_setSub _ _ _ _ h0), setLastVia_concat,
        setSub_setSub _ _ _ _ _ h0]
    · exact hlo
    · exact h0
    · exact setViaNode_url node

/-- A `get_and_save_json` call with positive fuel and nonempty entry location
appends exactly one node, with this call's URL, at the end of the sibling
list designated by the entry location, modifies pre-existing siblings at
most in their children, and restores the location. -/
theorem gasj_one_append (O : Oracle) (cfg : Cfg) (ign : List IgnoreRule)
    (rws : List RewriteRule) (fuel : Nat) (u : String) (t : CrawlState)
    (ws : List TNode) (hne : t.loc ≠ [])
    (h : subForest t.tree t.loc.dropLast = some ws) :
    (gasj O cfg (fuel + 1) u ign rws t).loc = t.loc ∧
    ∃ us m, (gasj O cfg (fuel + 1) u ign rws t).tree
        = setSub t.tree t.loc.dropLast (us ++ [m]) ∧
      List.Forall₂ shallowEq us ws ∧ m.url = u := by
  rw [gasj_succ]
  exact gasjCore_one_append _ O cfg ign _ _ _
    (gasj_recOK O cfg ign rws fuel) t ws hne h

/-- The exact effect of a call whose storage path was already constructed
earlier in the same run: mark the freshly appended node, bump the
duplicates counter, advance the dummy cache — and nothing else. -/
theorem gasjCore_dup (rec : String → CrawlState → CrawlState) (O : Oracle)
    (cfg : Cfg) (ign : List IgnoreRule) (epath rwb : String) (node : TNode)
    (t : CrawlState) (fc : FileContent)
    (hfc : alookup epath t.fs = some fc)
    (hap : (dummyConstruct epath t.dummy).1.alreadyProcessed = true) :
    gasjCore rec O cfg ign epath rwb node t
      = { t with
          tree := markLastAt (appendAt t.tree t.loc.dropLast node)
            t.loc.dropLast,
          dummy := (dummyConstruct epath t.dummy).2,
          duplicatesSkipped := t.duplicatesSkipped + 1 } := by
  simp only [gasjCore]
  split
  · split
    · rfl
    · next hap2 => exact absurd hap hap2
  · next heq =>
    rw [hfc] at heq
    exact Option.noConfusion heq

/-! ## C1 — fingerprint stability of the Path Resolver -/

/-- C1: two (endpoint, params) inputs whose parameter sets agree after the
simplification step (drop `sort`; drop `ctx` when `page` is present; drop
`pagelen`) resolve to the same storage path.  The endpoint is returned
unchanged by `rewrite_url`, so the path depends only on the endpoint and the
simplified rewritten parameters. -/
theorem c1_fingerprint_stable (savePath endpoint : String)
    (rules : List RewriteRule) (p1 p2 : Params)
    (h : simplifyParams (rewriteUrl endpoint p1 rules).2
       = simplifyParams (rewriteUrl endpoint p2 rules).2) :
    storagePathFor savePath rules endpoint p1
      = storagePathFor savePath rules endpoint p2 := by
  have e1 : (rewriteUrl endpoint p1 rules).1 = endpoint := rfl
  have e2 : (rewriteUrl endpoint p2 rules).1 = endpoint := rfl
  simp only [storagePathFor, endpointPathOf, h, e1, e2]

/-- Witness for C1: inputs differing only in sort order and page size resolve
to the same path. -/
theorem c1_fingerprint_stable_witness :
    (simplifyParams
        (rewriteUrl "repositories/o/r"
          [("sort", PVal.vstr "a"), ("q", PVal.vlist ["1"]), ("pagelen", PVal.vint 50)]
          []).2
      = simplifyParams (rewriteUrl "repositories/o/r" [("q", PVal.vlist ["1"])] []).2) ∧
    storagePathFor "raw" [] "repositories/o/r"
        [("sort", PVal.vstr "a"), ("q", PVal.vlist ["1"]), ("pagelen", PVal.vint 50)]
      = storagePathFor "raw" [] "repositories/o/r" [("q", PVal.vlist ["1"])] :=
  ⟨by decide, c1_fingerprint_stable "raw" "repositories/o/r" [] _ _ (by decide)⟩

/-! ## C4 — the pull-request rewrite scenario -/

theorem applyRuleRewrite_single_noneV (ps : Params) (k : String) (v : PVal)
    (h : alookup k ps = none) :
    applyRuleRewrite ps ⟨[(k, MVal.noneV)], [(k, UVal.val v)]⟩ = ps ++ [(k, v)] := by
  simp [applyRuleRewrite, matchOk, h, applyUpdate, aset_of_none k v h]

theorem applyRuleRewrite_single_star (ps : Params) (k : String) (v : PVal)
    (h : alookup k ps = none) :
    applyRuleRewrite ps ⟨[(k, MVal.star)], [(k, UVal.val v)]⟩ = ps ++ [(k, v)] := by
  simp [applyRuleRewrite, matchOk, applyUpdate, aset_of_none k v h]

/-- C4: on `repositories/acme/widget/pullrequests` with none of `state`,
`pagelen`, `page`, `sort` present, only the first declared rule matches and
its four rewrites fire in order, appending
`state=[MERGED, OPEN, SUPERSEDED, DECLINED]`, `pagelen=50`, `page=1`,
`sort=created_on`. -/
theorem c4_pullrequests_rewrite (p : Params)
    (hs : alookup "state" p = none) (hl : alookup "pagelen" p = none)
    (hp : alookup "page" p = none) (ho : alookup "sort" p = none) :
    (rewriteUrl "repositories/acme/widget/pullrequests" p
        (crawlerRewriteRules "acme" "widget")).2
      = p ++ [("state", PVal.vlist ["MERGED", "OPEN", "SUPERSEDED", "DECLINED"]),
              ("pagelen", PVal.vint 50), ("page", PVal.vint 1),
              ("sort", PVal.vstr "created_on")] ∧
    alookup "state" (rewriteUrl "repositories/acme/widget/pullrequests" p
        (crawlerRewriteRules "acme" "widget")).2
      = some (PVal.vlist ["MERGED", "OPEN", "SUPERSEDED", "DECLINED"]) ∧
    alookup "pagelen" (rewriteUrl "repositories/acme/widget/pullrequests" p
        (crawlerRewriteRules "acme" "widget")).2 = some (PVal.vint 50) ∧
    alookup "page" (rewriteUrl "repositories/acme/widget/pullrequests" p
        (crawlerRewriteRules "acme" "widget")).2 = some (PVal.vint 1) ∧
    alookup "sort" (rewriteUrl "repositories/acme/widget/pullrequests" p
        (crawlerRewriteRules "acme" "widget")).2
      = some (PVal.vstr "created_on") := by
  have key : (rewriteUrl "repositories/acme/widget/pullrequests" p
      (crawlerRewriteRules "acme" "widget")).2
    = applyRuleRewrite (applyRuleRewrite (applyRuleRewrite (applyRuleRewrite p
        ⟨[("state", MVal.noneV)],
         [("state", UVal.val (PVal.vlist ["MERGED", "OPEN", "SUPERSEDED", "DECLINED"]))]⟩)
        ⟨[("pagelen", MVal.noneV)], [("pagelen", UVal.val (PVal.vint 50))]⟩)
        ⟨[("page", MVal.noneV)], [("page", UVal.val (PVal.vint 1))]⟩)
        ⟨[("sort", MVal.star)], [("sort", UVal.val (PVal.vstr "created_on"))]⟩ := rfl
  set V := PVal.vlist ["MERGED", "OPEN", "SUPERSEDED", "DECLINED"] with hV
  have s1 : applyRuleRewrite p
      ⟨[("state", MVal.noneV)], [("state", UVal.val V)]⟩ = p ++ [("state", V)] :=
    applyRuleRewrite_single_noneV p "state" V hs
  have hl1 : alookup "pagelen" (p ++ [("state", V)]) = none := by
    rw [alookup_append_of_none _ _ hl]; rfl
  have s2 : applyRuleRewrite (p ++ [("state", V)])
      ⟨[("pagelen", MVal.noneV)], [("pagelen", UVal.val (PVal.vint 50))]⟩
      = p ++ [("state", V), ("pagelen", PVal.vint 50)] := by
    rw [applyRuleRewrite_single_noneV _ "pagelen" _ hl1, List.append_assoc]; rfl
  have hp1 : alookup "page" (p ++ [("state", V), ("pagelen", PVal.vint 50)]) = none := by
    rw [alookup_append_of_none _ _ hp]; rfl
  have s3 : applyRuleRewrite (p ++ [("state", V), ("pagelen", PVal.vint 50)])
      ⟨[("page", MVal.noneV)], [("page", UVal.val (PVal.vint 1))]⟩
      = p ++ [("state", V), ("pagelen", PVal.vint 50), ("page", PVal.vint 1)] := by
    rw [applyRuleRewrite_single_noneV _ "page" _ hp1, List.append_assoc]; rfl
  have ho1 : alookup "sort"
      (p ++ [("state", V), ("pagelen", PVal.vint 50), ("page", PVal.vint 1)]) = none := by
    rw [alookup_append_of_none _ _ ho]; rfl
  have s4 : applyRuleRewrite
      (p ++ [("state", V), ("pagelen", PVal.vint 50), ("page", PVal.vint 1)])
      ⟨[("sort", MVal.star)], [("sort", UVal.val (PVal.vstr "created_on"))]⟩
      = p ++ [("state", V), ("pagelen", PVal.vint 50), ("page", PVal.vint 1),
              ("sort", PVal.vstr "created_on")] := by
    rw [applyRuleRewrite_single_star _ "sort" _ ho1, List.append_assoc]; rfl
  have fin : (rewriteUrl "repositories/acme/widget/pullrequests" p
      (crawlerRewriteRules "acme" "widget")).2
      = p ++ [("state", V), ("pagelen", PVal.vint 50), ("page", PVal.vint 1),
              ("sort", PVal.vstr "created_on")] := by
    rw [key, s1, s2, s3, s4]
  refine ⟨fin, ?_, ?_, ?_, ?_⟩ <;>
    rw [fin] <;>
    first
    | (rw [alookup_append_of_none _ _ hs]; rfl)
    | (rw [alookup_append_of_none _ _ hl]; rfl)
    | (rw [alookup_append_of_none _ _ hp]; rfl)
    | (rw [alookup_append_of_none _ _ ho]; rfl)

/-- Witness for C4 at the empty parameter set. -/
theorem c4_pullrequests_rewrite_witness :
    (alookup "state" ([] : Params) = none ∧ alookup "pagelen" ([] : Params) = none ∧
     alookup "page" ([] : Params) = none ∧ alookup "sort" ([] : Params) = none) ∧
    alookup "state" (rewriteUrl "repositories/acme/widget/pullrequests" []
        (crawlerRewriteRules "acme" "widget")).2
      = some (PVal.vlist ["MERGED", "OPEN", "SUPERSEDED", "DECLINED"]) :=
  ⟨⟨rfl, rfl, rfl, rfl⟩,
   (c4_pullrequests_rewrite [] rfl rfl rfl rfl).2.1⟩

/-! ## C7 — the external URL rewrite table crashes -/

/-- C7: line 1730 iterates the external rewrite dict without `.items()`, so
it iterates the KEYS; unpacking a key string as `old_url, (new_url, _)`
raises `ValueError` for every possible key, hence for every non-empty table.
With an empty table the loop body never runs. -/
theorem c7_external_rewrites_raise :
    applyExternalRewrites
        [("https://old.example.org", "https://new.example.org",
          "https://gh.example.org")] exBodyPlain
      = Except.error "ValueError: too many values to unpack" ∧
    applyExternalRewrites [] exBodyPlain = Except.ok exBodyPlain :=
  ⟨rfl, rfl⟩

/-! ## C8 — two-comment thread reconstruction -/

/-- C8 counterexample: the claimed output annotates comment 1 (index 0) with
depth 0, but `flatten_comments` writes the depth onto `c['parent']` and a
root comment has no parent, so comment 1 carries no depth annotation. -/
theorem c8_counterexample :
    reconstruct exComments2 ≠ [(0, some 0), (1, some 1)] := by decide

/-- C8 (amended): reconstructing `{id 1, no parent}, {id 2, parent 1}` yields
the order [comment 1, comment 2]; comment 2 carries depth mark 1 (written on
its parent reference), comment 1 carries no depth mark. -/
theorem c8_two_comment_thread :
    reconstruct exComments2 = [(0, none), (1, some 1)] ∧
    (reconstruct exComments2).map (fun e => (idOf exComments2 e.1, e.2))
      = [(1, none), (2, some 1)] := by decide

/-! ## C10 — the class-level `DummyResponse` cache -/

/-- C10: constructing `DummyResponse` for a path not in the class-level cache
yields `already_processed = False` and stores the object; every construction
for a path bound in the cache returns the identical (same tag) object with
`already_processed` set to `True`, and leaves the binding in place, so all
later constructions in the same process — across export instances — keep
returning it. -/
theorem c10_dummy_cache (st : DummyState) (path : String)
    (h : alookup path st.cache = none) :
    (dummyConstruct path st).1.alreadyProcessed = false ∧
    alookup path (dummyConstruct path st).2.cache
      = some (dummyConstruct path st).1.tag ∧
    (∀ st' : DummyState,
      alookup path st'.cache = some (dummyConstruct path st).1.tag →
        (dummyConstruct path st').1.tag = (dummyConstruct path st).1.tag ∧
        (dummyConstruct path st').1.alreadyProcessed = true ∧
        alookup (dummyConstruct path st).1.tag (dummyConstruct path st').2.flags
          = some true ∧
        alookup path (dummyConstruct path st').2.cache
          = some (dummyConstruct path st).1.tag) := by
  refine ⟨?_, ?_, ?_⟩
  · simp [dummyConstruct, h]
  · simp [dummyConstruct, h, alookup_append_of_none path _ h, alookup]
  · intro st' h'
    simp only [dummyConstruct, h] at h' ⊢
    simp [h', alookup_aset_self]

/-- Witness for C10 at a concrete fresh cache. -/
theorem c10_dummy_cache_witness :
    alookup "raw/p.json" (⟨0, [], []⟩ : DummyState).cache = none ∧
    ((dummyConstruct "raw/p.json" ⟨0, [], []⟩).1.alreadyProcessed = false ∧
     alookup "raw/p.json" (dummyConstruct "raw/p.json" ⟨0, [], []⟩).2.cache
       = some (dummyConstruct "raw/p.json" ⟨0, [], []⟩).1.tag ∧
     (∀ st' : DummyState,
       alookup "raw/p.json" st'.cache
           = some (dummyConstruct "raw/p.json" ⟨0, [], []⟩).1.tag →
         (dummyConstruct "raw/p.json" st').1.tag
             = (dummyConstruct "raw/p.json" ⟨0, [], []⟩).1.tag ∧
         (dummyConstruct "raw/p.json" st').1.alreadyProcessed = true ∧
         alookup (dummyConstruct "raw/p.json" ⟨0, [], []⟩).1.tag
             (dummyConstruct "raw/p.json" st').2.flags = some true ∧
         alookup "raw/p.json" (dummyConstruct "raw/p.json" st').2.cache
           = some (dummyConstruct "raw/p.json" ⟨0, [], []⟩).1.tag)) :=
  ⟨by decide, c10_dummy_cache ⟨0, [], []⟩ "raw/p.json" (by decide)⟩

/-! ## C6 — link fixups in `make_urls_relative` -/

/-- C6 counterexample: a plain quoted versioned API URL of an archived
repository is left untouched by the whole JSON text transformation (the
fixup pattern requires escaped quotes, and versioned API URLs are deliberately
kept), so it is not rewritten to the claimed anchor. -/
theorem c6_counterexample :
    rewriteJsonText exRelCfg [] exBodyPlain = Except.ok exBodyPlain ∧
    exBodyPlain ≠ "\x7b\"x\": \"#!/acme/widget\"\x7d" :=
  ⟨rfl, by decide⟩

/-- C6 (amended): the fixup rewrites an escaped-quoted bare two-segment API
URL of an archived repository to the in-archive anchor, and redirects such a
URL of a non-archived repository to the public host. -/
theorem c6_fixup_rewrites :
    rewriteJsonText exRelCfg [] exBodyEscaped = Except.ok exBodyEscapedOut ∧
    rewriteJsonText exRelCfg [] exBodyOther = Except.ok exBodyOtherOut :=
  ⟨rfl, rfl⟩

/-! ## C9 — one node per call; C3, C2 — crawl-step behaviour -/

/-- C9: a `get_and_save_json` call with positive fuel appends exactly one
node — carrying the call's URL — at the end of the sibling list designated by
the entry `current_tree_location`, modifies the pre-existing siblings at most
in their children, and restores the location on return.  Every call of the
real program has a nonempty entry location: `__init__` sets the location to
`()` and immediately calls `tree_new_level()` (lines 1215-1217), so the root
call enters at `(0,)`, and the push/increment/pop bookkeeping keeps the
location nonempty in every nested call. -/
theorem c9_one_node_per_call (O : Oracle) (cfg : Cfg) (ign : List IgnoreRule)
    (rws : List RewriteRule) (fuel : Nat) (u : String) (t : CrawlState)
    (ws : List TNode) (hne : t.loc ≠ [])
    (h : subForest t.tree t.loc.dropLast = some ws) :
    (gasj O cfg (fuel + 1) u ign rws t).loc = t.loc ∧
    ∃ us m, (gasj O cfg (fuel + 1) u ign rws t).tree
        = setSub t.tree t.loc.dropLast (us ++ [m]) ∧
      List.Forall₂ shallowEq us ws ∧ m.url = u :=
  gasj_one_append O cfg ign rws fuel u t ws hne h

/-- Witness for C9 at the real initial crawl state (the root call). -/
theorem c9_one_node_per_call_witness :
    exState0.loc ≠ [] ∧
    ((gasj exOracleFresh exCfg 1 exUrl1 [] [] exState0).loc = exState0.loc ∧
     ∃ us m, (gasj exOracleFresh exCfg 1 exUrl1 [] [] exState0).tree
         = setSub exState0.tree exState0.loc.dropLast (us ++ [m]) ∧
       List.Forall₂ shallowEq us [] ∧
       m.url = exUrl1) :=
  ⟨by decide,
   c9_one_node_per_call exOracleFresh exCfg [] [] 0 exUrl1 exState0
     [] (by decide) rfl⟩

/-- C3 (amended): the `next`-pagination step (the recursive call followed by
`tree_increment_level`, source lines 1607-1609) runs from the post-push state
whose location is `M ++ [0]`, where `M` is the current call's entry location.
It appends the continuation's node at the end of the forest addressed by `M`
and bumps the location to `M ++ [1]`.  Since the location's last index always
designates the node the current call just appended (the root enters at `(0,)`
and the bookkeeping stays in sync), the forest at `M` is the current node's
children list — empty when the body starts — so the continuation is
registered as the current node's *first child*, not as a same-level
sibling. -/
theorem c3_continuation_level (O : Oracle) (cfg : Cfg) (ign : List IgnoreRule)
    (rws : List RewriteRule) (fuel : Nat) (nurl : String) (t1 : CrawlState)
    (M : List Nat) (cs : List TNode)
    (hlo : t1.loc = M ++ [0])
    (hcs : subForest t1.tree M = some cs) :
    (crawlStep (fun v s => gasj O cfg (fuel + 1) v ign rws s) nurl t1).loc
        = M ++ [1] ∧
    ∃ us m,
      (crawlStep (fun v s => gasj O cfg (fuel + 1) v ign rws s) nurl t1).tree
        = setSub t1.tree M (us ++ [m]) ∧
      List.Forall₂ shallowEq us cs ∧ m.url = nurl := by
  have hne : t1.loc ≠ [] := by rw [hlo]; simp
  have hdl : t1.loc.dropLast = M := by rw [hlo]; simp
  have h : subForest t1.tree t1.loc.dropLast = some cs := by
    rw [hdl]
    exact hcs
  obtain ⟨h1, us, m, htr, hus, hurl⟩ :=
    gasj_one_append O cfg ign rws fuel nurl t1 cs hne h
  refine ⟨?_, us, m, ?_, hus, hurl⟩
  · show incLast (gasj O cfg (fuel + 1) nurl ign rws t1).loc = M ++ [1]
    rw [h1, hlo, incLast_concat]
  · show (gasj O cfg (fuel + 1) nurl ign rws t1).tree
        = setSub t1.tree M (us ++ [m])
    rw [htr, hdl]

/-- Witness for the amended C3 statement at the post-push state of the root
call: the continuation becomes the root node's first child. -/
theorem c3_continuation_level_witness :
    exStepState.loc = [0] ++ [0] ∧
    ((crawlStep (fun v s => gasj exOracleFresh exCfg 1 v [] [] s) exUrl1
        exStepState).loc = [0] ++ [1] ∧
     ∃ us m,
       (crawlStep (fun v s => gasj exOracleFresh exCfg 1 v [] [] s) exUrl1
           exStepState).tree = setSub exStepState.tree [0] (us ++ [m]) ∧
       List.Forall₂ shallowEq us [] ∧
       m.url = exUrl1) :=
  ⟨rfl,
   c3_continuation_level exOracleFresh exCfg [] [] 0 exUrl1 exStepState [0]
     [] rfl rfl⟩

/-- C2 (amended): the duplicate-skip behaviour is keyed on the in-run
`DummyResponse` cache, not on on-disk existence.  When the storage path is on
disk *and* was already constructed earlier in the same run, the call marks
the freshly appended node `already_processed`, bumps the duplicates counter,
advances the dummy cache, and changes nothing else — no network call, no file
write, no recursion. -/
theorem c2_dup_exact (O : Oracle) (cfg : Cfg) (ign : List IgnoreRule)
    (rws : List RewriteRule) (fuel : Nat) (u : String) (t : CrawlState)
    (fc : FileContent)
    (hfc : alookup (storagePathOfUrl cfg rws u) t.fs = some fc)
    (hap : (dummyConstruct (storagePathOfUrl cfg rws u)
        t.dummy).1.alreadyProcessed = true) :
    gasj O cfg (fuel + 1) u ign rws t
      = { t with
          tree := markLastAt (appendAt t.tree t.loc.dropLast
            (TNode.mk u (rewrittenUrlOf rws u) (storagePathOfUrl cfg rws u)
              false false [])) t.loc.dropLast,
          dummy := (dummyConstruct (storagePathOfUrl cfg rws u) t.dummy).2,
          duplicatesSkipped := t.duplicatesSkipped + 1 } := by
  rw [gasj_succ]
  exact gasjCore_dup _ O cfg ign _ _ _ t fc hfc hap

/-- Witness for the amended C2 statement: second in-run encounter of
`exUrl1`'s storage path. -/
theorem c2_dup_exact_witness :
    alookup (storagePathOfUrl exCfg [] exUrl1) exDupState.fs
        = some (FileContent.fjson (JVal.jobj [])) ∧
    (dummyConstruct (storagePathOfUrl exCfg [] exUrl1)
        exDupState.dummy).1.alreadyProcessed = true ∧
    gasj exOracleFresh exCfg 1 exUrl1 [] [] exDupState
      = { exDupState with
          tree := markLastAt (appendAt exDupState.tree
            exDupState.loc.dropLast
            (TNode.mk exUrl1 (rewrittenUrlOf [] exUrl1)
              (storagePathOfUrl exCfg [] exUrl1) false false []))
            exDupState.loc.dropLast,
          dummy := (dummyConstruct (storagePathOfUrl exCfg [] exUrl1)
            exDupState.dummy).2,
          duplicatesSkipped := exDupState.duplicatesSkipped + 1 } :=
  ⟨rfl, rfl,
   c2_dup_exact exOracleFresh exCfg [] [] 0 exUrl1 exDupState _ rfl rfl⟩

/-! ## C5 — soundness of the placement order and the DFS flattening -/

theorem snocInj {α : Type} (l1 l2 : List α) (a b : α)
    (h : l1 ++ [a] = l2 ++ [b]) : l1 = l2 ∧ a = b := by
  have h2 := congrArg List.reverse h
  simp only [List.reverse_append, List.reverse_cons, List.reverse_nil,
    List.nil_append, List.cons_append] at h2
  injection h2 with hab htl
  exact ⟨List.reverse_inj.mp htl, hab⟩

theorem goodOrder_passStep (cs : List PyComment) (done : List Nat) (i : Nat)
    (hg : GoodOrder cs done) : GoodOrder cs (passStep cs done i) := by
  by_cases hmem : i ∈ done
  · simp only [passStep]
    rw [if_pos hmem]
    exact hg
  · simp only [passStep]
    rw [if_neg hmem]
    cases hci : cs.get? i with
    | none => exact hg
    | some c =>
      obtain ⟨hlt, -⟩ := List.get?_eq_some.mp hci
      show GoodOrder cs (match c.parent with
        | none => done ++ [i]
        | some pid =>
          if pid ∈ placedIds cs done then done ++ [i] else done)
      cases hp : c.parent with
      | none =>
        exact GoodOrder.snoc done i hg hmem hlt
          (fun pid hpid => by rw [hci] at hpid; simp [hp] at hpid)
      | some pid =>
        show GoodOrder cs (if pid ∈ placedIds cs done then done ++ [i] else done)
        by_cases hin : pid ∈ placedIds cs done
        · rw [if_pos hin]
          refine GoodOrder.snoc done i hg hmem hlt (fun pid' hpid' => ?_)
          rw [hci] at hpid'
          simp only [Option.some_bind, hp, Option.some.injEq] at hpid'
          rw [← hpid']
          exact hin
        · rw [if_neg hin]
          exact hg

theorem goodOrder_placePass (cs : List PyComment) (done : List Nat)
    (hg : GoodOrder cs done) : GoodOrder cs (placePass cs done) := by
  have hfold : ∀ (l : List Nat) (d : List Nat), GoodOrder cs d →
      GoodOrder cs (l.foldl (passStep cs) d) := by
    intro l
    induction l with
    | nil => intro d h; exact h
    | cons a l ih => intro d h; exact ih _ (goodOrder_passStep cs d a h)
  exact hfold _ done hg

theorem goodOrder_placeLoop (cs : List PyComment) :
    ∀ (n : Nat) (done : List Nat), GoodOrder cs done →
      GoodOrder cs (placeLoop cs n done)
  | 0, _, h => h
  | n + 1, done, h => by
    simp only [placeLoop]
    split
    · exact goodOrder_placeLoop cs n _ (goodOrder_placePass cs done h)
    · exact h

theorem goodOrder_placeAll (cs : List PyComment) : GoodOrder cs (placeAll cs) :=
  goodOrder_placeLoop cs cs.length [] GoodOrder.nil

theorem goodOrder_nodup (cs : List PyComment) :
    ∀ o, GoodOrder cs o → o.Nodup := by
  intro o h
  induction h with
  | nil => exact List.nodup_nil
  | snoc done j hg hnew hlt hpar ih =>
    simp [List.nodup_append, List.disjoint_singleton, ih, hnew]

theorem goodOrder_mem_lt (cs : List PyComment) :
    ∀ o, GoodOrder cs o → ∀ j ∈ o, j < cs.length := by
  intro o h
  induction h with
  | nil => intro j hj; simp at hj
  | snoc done x hg hnew hlt hpar ih =>
    intro j hj
    rcases List.mem_append.mp hj with hj | hj
    · exact ih j hj
    · rw [List.mem_singleton.mp hj]
      exact hlt

theorem goodOrder_parent_prefix (cs : List PyComment) :
    ∀ o, GoodOrder cs o → ∀ (a : List Nat) (j : Nat) (b : List Nat) (pid : Nat),
      o = a ++ j :: b → ((cs.get? j).bind PyComment.parent) = some pid →
      pid ∈ placedIds cs a := by
  intro o h
  induction h with
  | nil =>
    intro a j b pid he _
    simp at he
  | snoc done x hg hnew hlt hpar ih =>
    intro a j b pid he hp
    rcases List.eq_nil_or_concat b with hb | ⟨b', y, hb⟩
    · subst hb
      obtain ⟨ha, hx⟩ := snocInj done a x j he
      rw [← ha]
      rw [hx] at hpar
      exact hpar pid hp
    · subst hb
      have he2 : done ++ [x] = (a ++ j :: b') ++ [y] := by
        rw [he]
        simp
      obtain ⟨hd, -⟩ := snocInj done (a ++ j :: b') x y he2
      exact ih a j b' pid hd hp

theorem mem_kidsOf {cs : List PyComment} {order : List Nat} {pid k : Nat} :
    k ∈ kidsOf cs order pid ↔
      k ∈ order ∧ ((cs.get? k).bind PyComment.parent) = some pid := by
  simp only [kidsOf, List.mem_filter]
  cases hc : cs.get? k with
  | none => simp
  | some c => simp

theorem mem_rootsOf {cs : List PyComment} {order : List Nat} {r : Nat} :
    r ∈ rootsOf cs order ↔
      r ∈ order ∧ ∃ c, cs.get? r = some c ∧ c.parent = none := by
  simp only [rootsOf, List.mem_filter]
  cases hc : cs.get? r with
  | none => simp
  | some c => simp [Option.isNone_iff_eq_none]

theorem idOf_inj (cs : List PyComment)
    (hids : (cs.map PyComment.cid).Nodup) (i j : Nat)
    (hi : i < cs.length) (hj : j < cs.length)
    (h : idOf cs i = idOf cs j) : i = j := by
  have hinj := List.nodup_iff_injective_get.mp hids
  have hi' : i < (cs.map PyComment.cid).length := by simpa using hi
  have hj' : j < (cs.map PyComment.cid).length := by simpa using hj
  have e1 : idOf cs i = (cs.get ⟨i, hi⟩).cid := by
    unfold idOf
    rw [List.get?_eq_get hi]
  have e2 : idOf cs j = (cs.get ⟨j, hj⟩).cid := by
    unfold idOf
    rw [List.get?_eq_get hj]
  have hget : (cs.map PyComment.cid).get ⟨i, hi'⟩
      = (cs.map PyComment.cid).get ⟨j, hj'⟩ := by
    simp only [List.get_map]
    rw [← e1, ← e2]
    exact h
  exact congrArg Fin.val (hinj hget)

theorem idxAppend : ∀ (a : List Nat) (j : Nat) (b : List Nat), j ∉ a →
    (a ++ j :: b).indexOf j = a.length := by
  intro a
  induction a with
  | nil => intro j b _; simp
  | cons x a ih =>
    intro j b h
    simp only [List.mem_cons, not_or] at h
    simp only [List.cons_append, List.indexOf_cons, List.length_cons]
    have hx : (x == j) = false := by
      simp [Ne.symm h.1]
    rw [hx]
    simp [ih j b h.2]

theorem idxPrefix : ∀ (a : List Nat) (j : Nat) (r : List Nat), j ∈ a →
    (a ++ r).indexOf j = a.indexOf j := by
  intro a
  induction a with
  | nil => intro j r h; simp at h
  | cons x a ih =>
    intro j r h
    by_cases hx : x = j
    · subst hx
      simp [List.indexOf_cons_self]
    · have hx' : (x == j) = false := by simp [hx]
      simp only [List.cons_append, List.indexOf_cons, hx']
      have : j ∈ a := by
        rcases List.mem_cons.mp h with h1 | h1
        · exact absurd h1.symm hx
        · exact h1
      simp [ih j r this]

theorem pos_lt_of_child (cs : List PyComment) (order : List Nat)
    (hg : GoodOrder cs order) (hnd : order.Nodup)
    (hids : (cs.map PyComment.cid).Nodup)
    (k j : Nat) (hk : k ∈ order) (hj : j ∈ order)
    (hp : ((cs.get? k).bind PyComment.parent) = some (idOf cs j)) :
    order.indexOf j < order.indexOf k := by
  obtain ⟨a, b, hsplit⟩ := List.append_of_mem hk
  have hpid := goodOrder_parent_prefix cs order hg a k b (idOf cs j) hsplit hp
  obtain ⟨i, hia, hidi⟩ := List.mem_filterMap.mp hpid
  have hio : i ∈ order := by
    rw [hsplit]
    exact List.mem_append_left _ hia
  have hilt : i < cs.length := goodOrder_mem_lt cs order hg i hio
  have hjlt : j < cs.length := goodOrder_mem_lt cs order hg j hj
  have hidEq : idOf cs i = idOf cs j := by
    cases hc : cs.get? i with
    | none => rw [hc] at hidi; simp at hidi
    | some c =>
      rw [hc] at hidi
      simp only [Option.map] at hidi
      injection hidi with hidi
      have h1 : idOf cs i = c.cid := by
        unfold idOf
        rw [hc]
      exact h1.trans hidi
  have hij : i = j := idOf_inj cs hids i j hilt hjlt hidEq
  subst hij
  have hka : k ∉ a := by
    intro hka
    have hnd2 := hnd
    rw [hsplit] at hnd2
    exact (List.nodup_append.mp hnd2).2.2 hka (List.mem_cons_self k b)
  rw [hsplit, idxAppend a k b hka, idxPrefix a i (k :: b) hia]
  exact List.indexOf_lt_length.mpr hia

theorem pos_lt_length (order : List Nat) (j : Nat) (hj : j ∈ order) :
    order.indexOf j < order.length :=
  List.indexOf_lt_length.mpr hj

theorem count_flatMap {α β : Type} [DecidableEq β] (g : α → List β) (x : β) :
    ∀ l : List α,
      List.count x (l.flatMap g) = (l.map (fun a => List.count x (g a))).sum := by
  intro l
  induction l with
  | nil => rfl
  | cons a l ih => simp [List.count_append, ih]

theorem owner_exists (cs : List PyComment) (order : List Nat)
    (hg : GoodOrder cs order) (hnd : order.Nodup) (x pid : Nat)
    (hx : x ∈ order) (hpx : ((cs.get? x).bind PyComment.parent) = some pid) :
    ∃ w, w ∈ order ∧ idOf cs w = pid ∧ order.indexOf w < order.indexOf x := by
  obtain ⟨a, b, hsplit⟩ := List.append_of_mem hx
  have hpid := goodOrder_parent_prefix cs order hg a x b pid hsplit hpx
  obtain ⟨w, hwa, hidw⟩ := List.mem_filterMap.mp hpid
  have hwo : w ∈ order := by
    rw [hsplit]
    exact List.mem_append_left _ hwa
  have hid : idOf cs w = pid := by
    cases hc : cs.get? w with
    | none => rw [hc] at hidw; simp at hidw
    | some c =>
      rw [hc] at hidw
      simp only [Option.map] at hidw
      injection hidw with hidw
      have h1 : idOf cs w = c.cid := by
        unfold idOf
        rw [hc]
      exact h1.trans hidw
  have hxa : x ∉ a := by
    intro hxa
    have hnd2 := hnd
    rw [hsplit] at hnd2
    exact (List.nodup_append.mp hnd2).2.2 hxa (List.mem_cons_self x b)
  refine ⟨w, hwo, hid, ?_⟩
  rw [hsplit, idxAppend a x b hxa, idxPrefix a w (x :: b) hwa]
  exact List.indexOf_lt_length.mpr hwa

theorem odesc_mem_left {cs : List PyComment} {order : List Nat} {x i : Nat}
    (h : odesc cs order x i) : x ∈ order := by
  induction h with
  | single h1 => exact h1.1
  | tail _ _ ih => exact ih

theorem odesc_parent_some {cs : List PyComment} {order : List Nat} {x i : Nat}
    (h : odesc cs order x i) :
    ∃ pid, ((cs.get? x).bind PyComment.parent) = some pid := by
  induction h with
  | single h1 => exact ⟨_, h1.2⟩
  | tail _ _ ih => exact ih

theorem odesc_pos_lt (cs : List PyComment) (order : List Nat)
    (hg : GoodOrder cs order) (hnd : order.Nodup)
    (hids : (cs.map PyComment.cid).Nodup) {x i : Nat}
    (h : odesc cs order x i) :
    i ∈ order → order.indexOf i < order.indexOf x := by
  induction h with
  | single h1 =>
    intro hi
    exact pos_lt_of_child cs order hg hnd hids x _ h1.1 hi h1.2
  | tail hxb hbc ih =>
    intro hi
    exact lt_trans (pos_lt_of_child cs order hg hnd hids _ _ hbc.1 hi hbc.2)
      (ih hbc.1)

theorem odesc_iff_owner (cs : List PyComment) (order : List Nat)
    (hg : GoodOrder cs order) (hnd : order.Nodup)
    (hids : (cs.map PyComment.cid).Nodup)
    (x w : Nat) (hx : x ∈ order) (hw : w ∈ order)
    (hpw : ((cs.get? x).bind PyComment.parent) = some (idOf cs w))
    (i : Nat) (hi : i ∈ order) :
    odesc cs order x i ↔ (w = i ∨ odesc cs order w i) := by
  constructor
  · intro h
    obtain ⟨b, hab, hbc⟩ := (Relation.TransGen.head'_iff).mp h
    have hidb : idOf cs b = idOf cs w := by
      have h2 : (cs.get? x).bind PyComment.parent = some (idOf cs b) := hab.2
      rw [hpw] at h2
      injection h2 with h2
      exact h2.symm
    rcases Relation.ReflTransGen.cases_head hbc with rfl | ⟨c, hbc1, hci⟩
    · -- b = i, so b ∈ order; identify b with w
      have hbw : b = w := idOf_inj cs hids b w
        (goodOrder_mem_lt cs order hg b hi)
        (goodOrder_mem_lt cs order hg w hw) hidb
      exact Or.inl hbw.symm
    · have hbo : b ∈ order := hbc1.1
      have hbw : b = w := idOf_inj cs hids b w
        (goodOrder_mem_lt cs order hg b hbo)
        (goodOrder_mem_lt cs order hg w hw) hidb
      subst hbw
      exact Or.inr (Relation.TransGen.head' hbc1 hci)
  · intro h
    rcases h with rfl | h
    · exact Relation.TransGen.single ⟨hx, hpw⟩
    · exact Relation.TransGen.head ⟨hx, hpw⟩ h

theorem emitF_count_nokid (cs : List PyComment) (order : List Nat) (x : Nat)
    (hx : ∀ q, ¬(x ∈ order ∧ ((cs.get? x).bind PyComment.parent) = some q)) :
    ∀ (f : Nat) (pid : Nat), List.count x (emitF cs order f pid) = 0 := by
  intro f
  induction f with
  | zero => intro pid; simp [emitF]
  | succ f ih =>
    intro pid
    simp only [emitF]
    rw [count_flatMap]
    apply List.sum_eq_zero
    intro m hm
    obtain ⟨k, hk, rfl⟩ := List.mem_map.mp hm
    have hkm := mem_kidsOf.mp hk
    have hne : ¬(k = x) := fun he => hx pid ⟨he ▸ hkm.1, he ▸ hkm.2⟩
    simp [List.count_cons, hne, ih (idOf cs k)]

theorem emitF_count_low (cs : List PyComment) (order : List Nat)
    (hg : GoodOrder cs order) (hnd : order.Nodup)
    (hids : (cs.map PyComment.cid).Nodup) :
    ∀ (f : Nat) (i x : Nat), i ∈ order → x ∈ order →
      order.indexOf x ≤ order.indexOf i →
      List.count x (emitF cs order f (idOf cs i)) = 0 := by
  intro f
  induction f with
  | zero => intro i x _ _ _; simp [emitF]
  | succ f ih =>
    intro i x hi hx hle
    simp only [emitF]
    rw [count_flatMap]
    apply List.sum_eq_zero
    intro m hm
    obtain ⟨k, hk, rfl⟩ := List.mem_map.mp hm
    have hkm := mem_kidsOf.mp hk
    have hkpos : order.indexOf i < order.indexOf k :=
      pos_lt_of_child cs order hg hnd hids k i hkm.1 hi hkm.2
    have hne : ¬(k = x) := by
      intro he
      subst he
      exact absurd (lt_of_le_of_lt hle hkpos) (lt_irrefl _)
    simp [List.count_cons, hne,
      ih k x hkm.1 hx (le_of_lt (lt_of_le_of_lt hle hkpos))]

theorem emitF_count (cs : List PyComment) (order : List Nat)
    (hg : GoodOrder cs order) (hnd : order.Nodup)
    (hids : (cs.map PyComment.cid).Nodup) :
    ∀ (n : Nat) (x : Nat), order.indexOf x ≤ n →
      ∀ (f : Nat) (i : Nat), i ∈ order →
        order.length ≤ f + order.indexOf i →
        (odesc cs order x i →
          List.count x (emitF cs order f (idOf cs i)) = 1) ∧
        (¬ odesc cs order x i →
          List.count x (emitF cs order f (idOf cs i)) = 0) := by
  intro n
  induction n with
  | zero =>
    intro x hx0 f i hi _
    constructor
    · intro hdesc
      have h1 := odesc_pos_lt cs order hg hnd hids hdesc hi
      omega
    · intro _
      by_cases hxo : x ∈ order
      · cases hpx : (cs.get? x).bind PyComment.parent with
        | none =>
          exact emitF_count_nokid cs order x
            (fun q hq => by rw [hpx] at hq; exact Option.noConfusion hq.2)
            f (idOf cs i)
        | some pid =>
          obtain ⟨w, hw, hidw, hwlt⟩ :=
            owner_exists cs order hg hnd x pid hxo hpx
          omega
      · exact emitF_count_nokid cs order x (fun q hq => hxo hq.1) f (idOf cs i)
  | succ n ihn =>
    intro x hxn f i hi hfuel
    by_cases hxo : x ∈ order
    case neg =>
      have hz := emitF_count_nokid cs order x (fun q hq => hxo hq.1) f (idOf cs i)
      exact ⟨fun hdesc => absurd (odesc_mem_left hdesc) hxo, fun _ => hz⟩
    cases hpx : (cs.get? x).bind PyComment.parent with
    | none =>
      have hz := emitF_count_nokid cs order x
        (fun q hq => by rw [hpx] at hq; exact Option.noConfusion hq.2)
        f (idOf cs i)
      refine ⟨fun hdesc => ?_, fun _ => hz⟩
      obtain ⟨pid, hp⟩ := odesc_parent_some hdesc
      rw [hpx] at hp
      exact Option.noConfusion hp
    | some pid =>
      obtain ⟨w, hw, hidw, hwlt⟩ := owner_exists cs order hg hnd x pid hxo hpx
      have hpw : ((cs.get? x).bind PyComment.parent) = some (idOf cs w) := by
        rw [hpx, hidw]
      have hwn : order.indexOf w ≤ n := by omega
      have hop : ∀ (f : Nat) (i : Nat), i ∈ order →
          order.length ≤ f + order.indexOf i →
          List.count x (emitF cs order f (idOf cs i))
            = if w = i then 1
              else List.count w (emitF cs order f (idOf cs i)) := by
        intro f
        induction f with
        | zero =>
          intro i hi hfuel
          have := pos_lt_length order i hi
          omega
        | succ f ihf =>
          intro i hi hfuel
          by_cases hwi : w = i
          · rw [if_pos hwi]
            subst hwi
            have hxkid : x ∈ kidsOf cs order (idOf cs w) :=
              mem_kidsOf.mpr ⟨hxo, hpw⟩
            have hknd : (kidsOf cs order (idOf cs w)).Nodup :=
              hnd.filter _
            obtain ⟨a, b, hab⟩ := List.append_of_mem hxkid
            have hxa : x ∉ a := by
              intro hxa
              have hknd2 := hknd
              rw [hab] at hknd2
              exact (List.nodup_append.mp hknd2).2.2 hxa
                (List.mem_cons_self x b)
            have hcnt0 : ∀ k, k ∈ kidsOf cs order (idOf cs w) → k ≠ x →
                List.count x (k :: emitF cs order f (idOf cs k)) = 0 := by
              intro k hk hkx
              have hkm := mem_kidsOf.mp hk
              have hkpos : order.indexOf w < order.indexOf k :=
                pos_lt_of_child cs order hg hnd hids k w hkm.1 hw hkm.2
              have hfk : order.length ≤ f + order.indexOf k := by omega
              have hwk : ¬(w = k) := by
                intro he
                subst he
                exact absurd hkpos (lt_irrefl _)
              have hxk : ¬(x = k) := fun he => hkx he.symm
              rw [List.count_cons, ihf k hkm.1 hfk, if_neg hwk]
              simp [hkx, hxk,
                emitF_count_low cs order hg hnd hids f k w hkm.1 hw
                  (le_of_lt hkpos)]
            have hmidpos : order.indexOf w < order.indexOf x := hwlt
            have hmid :
                List.count x (x :: emitF cs order f (idOf cs x)) = 1 := by
              have hfx : order.length ≤ f + order.indexOf x := by omega
              have hwx : ¬(w = x) := by
                intro he
                subst he
                exact absurd hmidpos (lt_irrefl _)
              rw [List.count_cons, ihf x hxo hfx, if_neg hwx]
              simp [emitF_count_low cs order hg hnd hids f x w hxo hw
                (le_of_lt hmidpos)]
            simp only [emitF]
            rw [hab, List.flatMap_append, List.flatMap_cons,
              List.count_append, List.count_append]
            have hza : List.count x
                (a.flatMap (fun k => k :: emitF cs order f (idOf cs k))) = 0 := by
              rw [count_flatMap]
              apply List.sum_eq_zero
              intro m hm
              obtain ⟨k, hk, rfl⟩ := List.mem_map.mp hm
              have hka : k ∈ kidsOf cs order (idOf cs w) := by
                rw [hab]
                exact List.mem_append_left _ hk
              have hkx : k ≠ x := fun he => hxa (he ▸ hk)
              exact hcnt0 k hka hkx
            have hzb : List.count x
                (b.flatMap (fun k => k :: emitF cs order f (idOf cs k))) = 0 := by
              rw [count_flatMap]
              apply List.sum_eq_zero
              intro m hm
              obtain ⟨k, hk, rfl⟩ := List.mem_map.mp hm
              have hka : k ∈ kidsOf cs order (idOf cs w) := by
                rw [hab]
                exact List.mem_append_right _ (List.mem_cons_of_mem _ hk)
              have hkx : k ≠ x := by
                intro he
                subst he
                have hknd2 := hknd
                rw [hab] at hknd2
                have := (List.nodup_append.mp hknd2).2.1
                exact (List.nodup_cons.mp this).1 hk
              exact hcnt0 k hka hkx
            rw [hza, hzb, hmid]
          · rw [if_neg hwi]
            simp only [emitF]
            rw [count_flatMap, count_flatMap]
            congr 1
            apply List.map_congr_left
            intro k hk
            have hkm := mem_kidsOf.mp hk
            have hkpos : order.indexOf i < order.indexOf k :=
              pos_lt_of_child cs order hg hnd hids k i hkm.1 hi hkm.2
            have hfk : order.length ≤ f + order.indexOf k := by omega
            rw [List.count_cons, List.count_cons, ihf k hkm.1 hfk]
            by_cases hwk : w = k
            · subst hwk
              have hxw : ¬(x = w) := by
                intro he
                subst he
                exact absurd hwlt (lt_irrefl _)
              have hwx : ¬(w = x) := fun he => hxw he.symm
              simp [hxw, hwx,
                emitF_count_low cs order hg hnd hids f w w hkm.1 hw
                  (le_refl _)]
            · have hxk : ¬(x = k) := by
                intro he
                subst he
                have h1 : (some (idOf cs i) : Option Nat) = some (idOf cs w) :=
                  hkm.2.symm.trans hpw
                injection h1 with h1
                exact hwi (idOf_inj cs hids i w
                  (goodOrder_mem_lt cs order hg i hi)
                  (goodOrder_mem_lt cs order hg w hw) h1).symm
              have hkw : ¬(k = w) := fun he => hwk he.symm
              have hkx : ¬(k = x) := fun he => hxk he.symm
              simp [hwk, hxk, hkw, hkx]
      constructor
      · intro hdesc
        rw [hop f i hi hfuel]
        rcases (odesc_iff_owner cs order hg hnd hids x w hxo hw hpw i hi).mp
            hdesc with rfl | hwd
        · rw [if_pos rfl]
        · have hwi : ¬(w = i) := by
            intro he
            subst he
            exact absurd (odesc_pos_lt cs order hg hnd hids hwd hi)
              (lt_irrefl _)
          rw [if_neg hwi]
          exact (ihn w hwn f i hi hfuel).1 hwd
      · intro hndesc
        rw [hop f i hi hfuel]
        have hiff := odesc_iff_owner cs order hg hnd hids x w hxo hw hpw i hi
        have hwi : ¬(w = i) := fun he => hndesc (hiff.mpr (Or.inl he))
        rw [if_neg hwi]
        exact (ihn w hwn f i hi hfuel).2 (fun hwd => hndesc (hiff.mpr (Or.inr hwd)))

theorem emitAll_count (cs : List PyComment) (order : List Nat)
    (hg : GoodOrder cs order) (hnd : order.Nodup)
    (hids : (cs.map PyComment.cid).Nodup) :
    ∀ (n x : Nat), order.indexOf x ≤ n →
      List.count x (emitAll cs order) = List.count x order := by
  intro n
  induction n with
  | zero =>
    intro x hx0
    by_cases hxo : x ∈ order
    · have hpos := pos_lt_length order x hxo
      -- position 0: x is the first placed comment, hence a root
      have hfirst : ∃ c, cs.get? x = some c ∧ c.parent = none := by
        obtain ⟨a, b, hsplit⟩ := List.append_of_mem hxo
        have hxa : x ∉ a := by
          intro hxa
          have hnd2 := hnd
          rw [hsplit] at hnd2
          exact (List.nodup_append.mp hnd2).2.2 hxa (List.mem_cons_self x b)
        have ha0 : a = [] := by
          have hidx : order.indexOf x = a.length := by
            rw [hsplit]
            exact idxAppend a x b hxa
          have : a.length = 0 := by omega
          exact List.eq_nil_of_length_eq_zero this
        cases hc : cs.get? x with
        | none =>
          have := goodOrder_mem_lt cs order hg x hxo
          rw [List.get?_eq_get this] at hc
          exact Option.noConfusion hc
        | some c =>
          refine ⟨c, rfl, ?_⟩
          cases hp : c.parent with
          | none => rfl
          | some pid =>
            have hbind : ((cs.get? x).bind PyComment.parent) = some pid := by
              rw [hc]
              simp [hp]
            have hsplit0 : order = [] ++ x :: b := by
              rw [← ha0]
              exact hsplit
            have := goodOrder_parent_prefix cs order hg [] x b pid hsplit0 hbind
            simp [placedIds] at this
      obtain ⟨c, hc, hp⟩ := hfirst
      have hxbind : ((cs.get? x).bind PyComment.parent) = none := by
        rw [hc]
        simp [hp]
      have hxroot : x ∈ rootsOf cs order := mem_rootsOf.mpr ⟨hxo, c, hc, hp⟩
      have hnokid := emitF_count_nokid cs order x
        (fun q hq => by rw [hxbind] at hq; exact Option.noConfusion hq.2)
      have hrnd : (rootsOf cs order).Nodup := hnd.filter _
      obtain ⟨ra, rb, hroots⟩ := List.append_of_mem hxroot
      have hxra : x ∉ ra := by
        intro hxa
        have h2 := hrnd
        rw [hroots] at h2
        exact (List.nodup_append.mp h2).2.2 hxa (List.mem_cons_self x rb)
      have hxrb : x ∉ rb := by
        intro hxa
        have h2 := hrnd
        rw [hroots] at h2
        exact (List.nodup_cons.mp (List.nodup_append.mp h2).2.1).1 hxa
      rw [List.count_eq_one_of_mem hnd hxo]
      unfold emitAll
      rw [hroots, List.flatMap_append, List.flatMap_cons, List.count_append,
        List.count_append]
      have hza : List.count x
          (ra.flatMap (fun r => r :: emitF cs order order.length (idOf cs r)))
          = 0 := by
        rw [count_flatMap]
        apply List.sum_eq_zero
        intro m hm
        obtain ⟨r, hr, rfl⟩ := List.mem_map.mp hm
        have hrx : ¬(r = x) := fun he => hxra (he ▸ hr)
        have hxr : ¬(x = r) := fun he => hrx he.symm
        simp [List.count_cons, hrx, hxr, hnokid]
      have hzb : List.count x
          (rb.flatMap (fun r => r :: emitF cs order order.length (idOf cs r)))
          = 0 := by
        rw [count_flatMap]
        apply List.sum_eq_zero
        intro m hm
        obtain ⟨r, hr, rfl⟩ := List.mem_map.mp hm
        have hrx : ¬(r = x) := fun he => hxrb (he ▸ hr)
        have hxr : ¬(x = r) := fun he => hrx he.symm
        simp [List.count_cons, hrx, hxr, hnokid]
      simp [hza, hzb, List.count_cons, hnokid]
    · rw [List.count_eq_zero.mpr hxo]
      unfold emitAll
      rw [count_flatMap]
      apply List.sum_eq_zero
      intro m hm
      obtain ⟨r, hr, rfl⟩ := List.mem_map.mp hm
      have hro := (mem_rootsOf.mp hr).1
      have hrx : ¬(r = x) := fun he => hxo (he ▸ hro)
      have hxr : ¬(x = r) := fun he => hrx he.symm
      simp [List.count_cons, hrx, hxr,
        emitF_count_nokid cs order x (fun q hq => hxo hq.1)]
  | succ n ihn =>
    intro x hxn
    by_cases hxo : x ∈ order
    case neg =>
      rw [List.count_eq_zero.mpr hxo]
      unfold emitAll
      rw [count_flatMap]
      apply List.sum_eq_zero
      intro m hm
      obtain ⟨r, hr, rfl⟩ := List.mem_map.mp hm
      have hro := (mem_rootsOf.mp hr).1
      have hrx : ¬(r = x) := fun he => hxo (he ▸ hro)
      have hxr : ¬(x = r) := fun he => hrx he.symm
      simp [List.count_cons, hrx, hxr,
        emitF_count_nokid cs order x (fun q hq => hxo hq.1)]
    cases hpx : (cs.get? x).bind PyComment.parent with
    | none =>
      -- roots case, identical to position 0 reasoning
      have hxroot : x ∈ rootsOf cs order := by
        refine mem_rootsOf.mpr ⟨hxo, ?_⟩
        cases hc : cs.get? x with
        | none =>
          have := goodOrder_mem_lt cs order hg x hxo
          rw [List.get?_eq_get this] at hc
          exact Option.noConfusion hc
        | some c =>
          refine ⟨c, rfl, ?_⟩
          rw [hc] at hpx
          simpa using hpx
      have hnokid := emitF_count_nokid cs order x
        (fun q hq => by rw [hpx] at hq; exact Option.noConfusion hq.2)
      have hrnd : (rootsOf cs order).Nodup := hnd.filter _
      obtain ⟨ra, rb, hroots⟩ := List.append_of_mem hxroot
      have hxra : x ∉ ra := by
        intro hxa
        have h2 := hrnd
        rw [hroots] at h2
        exact (List.nodup_append.mp h2).2.2 hxa (List.mem_cons_self x rb)
      have hxrb : x ∉ rb := by
        intro hxa
        have h2 := hrnd
        rw [hroots] at h2
        exact (List.nodup_cons.mp (List.nodup_append.mp h2).2.1).1 hxa
      rw [List.count_eq_one_of_mem hnd hxo]
      unfold emitAll
      rw [hroots, List.flatMap_append, List.flatMap_cons, List.count_append,
        List.count_append]
      have hza : List.count x
          (ra.flatMap (fun r => r :: emitF cs order order.length (idOf cs r)))
          = 0 := by
        rw [count_flatMap]
        apply List.sum_eq_zero
        intro m hm
        obtain ⟨r, hr, rfl⟩ := List.mem_map.mp hm
        have hrx : ¬(r = x) := fun he => hxra (he ▸ hr)
        have hxr : ¬(x = r) := fun he => hrx he.symm
        simp [List.count_cons, hrx, hxr, hnokid]
      have hzb : List.count x
          (rb.flatMap (fun r => r :: emitF cs order order.length (idOf cs r)))
          = 0 := by
        rw [count_flatMap]
        apply List.sum_eq_zero
        intro m hm
        obtain ⟨r, hr, rfl⟩ := List.mem_map.mp hm
        have hrx : ¬(r = x) := fun he => hxrb (he ▸ hr)
        have hxr : ¬(x = r) := fun he => hrx he.symm
        simp [List.count_cons, hrx, hxr, hnokid]
      simp [hza, hzb, List.count_cons, hnokid]
    | some pid =>
      obtain ⟨w, hw, hidw, hwlt⟩ := owner_exists cs order hg hnd x pid hxo hpx
      have hpw : ((cs.get? x).bind PyComment.parent) = some (idOf cs w) := by
        rw [hpx, hidw]
      have hwn : order.indexOf w ≤ n := by omega
      have hxroots : x ∉ rootsOf cs order := by
        intro hr
        obtain ⟨-, c, hc, hp⟩ := mem_rootsOf.mp hr
        rw [hc] at hpx
        simp [hp] at hpx
      -- step to the owner
      have hstep : List.count x (emitAll cs order)
          = List.count w (emitAll cs order) := by
        unfold emitAll
        rw [count_flatMap, count_flatMap]
        congr 1
        apply List.map_congr_left
        intro r hr
        have hro := (mem_rootsOf.mp hr).1
        have hfuel : order.length ≤ order.length + order.indexOf r :=
          Nat.le_add_right _ _
        have hux := emitF_count cs order hg hnd hids (order.indexOf x) x
          (le_refl _) order.length r hro hfuel
        have huw := emitF_count cs order hg hnd hids (order.indexOf w) w
          (le_refl _) order.length r hro hfuel
        have hiff := odesc_iff_owner cs order hg hnd hids x w hxo hw hpw r hro
        have hrx : ¬(r = x) := fun he => hxroots (he ▸ hr)
        have hxr : ¬(x = r) := fun he => hrx he.symm
        by_cases hwr : w = r
        · subst hwr
          have h1 : List.count x (emitF cs order order.length (idOf cs w)) = 1 :=
            hux.1 (hiff.mpr (Or.inl rfl))
          have h2 : List.count w (emitF cs order order.length (idOf cs w)) = 0 := by
            refine huw.2 (fun hd => ?_)
            exact absurd (odesc_pos_lt cs order hg hnd hids hd hw) (lt_irrefl _)
          simp [List.count_cons, h1, h2, hrx, hxr]
        · have hrw : ¬(r = w) := fun he => hwr he.symm
          by_cases hdw : odesc cs order w r
          · have h1 : List.count x (emitF cs order order.length (idOf cs r)) = 1 :=
              hux.1 (hiff.mpr (Or.inr hdw))
            have h2 : List.count w (emitF cs order order.length (idOf cs r)) = 1 :=
              huw.1 hdw
            simp [List.count_cons, h1, h2, hrx, hxr, hwr, hrw]
          · have h1 : List.count x (emitF cs order order.length (idOf cs r)) = 0 := by
              refine hux.2 (fun hd => ?_)
              rcases hiff.mp hd with he | hd2
              · exact hwr he
              · exact hdw hd2
            have h2 : List.count w (emitF cs order order.length (idOf cs r)) = 0 :=
              huw.2 hdw
            simp [List.count_cons, h1, h2, hrx, hxr, hwr, hrw]
      rw [hstep, ihn w hwn]
      rw [List.count_eq_one_of_mem hnd hxo, List.count_eq_one_of_mem hnd hw]

theorem emitAll_perm (cs : List PyComment) (order : List Nat)
    (hg : GoodOrder cs order) (hnd : order.Nodup)
    (hids : (cs.map PyComment.cid).Nodup) :
    List.Perm (emitAll cs order) order := by
  rw [List.perm_iff_count]
  intro a
  exact emitAll_count cs order hg hnd hids (order.indexOf a) a (le_refl _)

theorem flattenKids_map_fst (cs : List PyComment) (g : Nat → List ITree) :
    ∀ (L : List Nat) (d : Nat),
      (flattenKids cs (L.map (fun j => ITree.node j (g j))) d).map Prod.fst
        = L.flatMap
            (fun j => j :: (flattenKids cs (g j) (d + 1)).map Prod.fst) := by
  intro L
  induction L with
  | nil => intro d; rfl
  | cons j L ih =>
    intro d
    simp only [List.map_cons, flattenKids, flattenTree, List.map_append,
      List.flatMap_cons]
    rw [ih d]

theorem emitF_spec (cs : List PyComment) (order : List Nat) :
    ∀ (f pid d : Nat),
      (flattenKids cs (buildKids cs order f pid) d).map Prod.fst
        = emitF cs order f pid := by
  intro f
  induction f with
  | zero => intro pid d; rfl
  | succ f ih =>
    intro pid d
    simp only [buildKids, emitF]
    rw [flattenKids_map_fst cs (fun j => buildKids cs order f (idOf cs j))]
    congr 1
    funext j
    rw [ih (idOf cs j) (d + 1)]

theorem reconstruct_fst (cs : List PyComment) :
    (reconstruct cs).map Prod.fst = emitAll cs (placeAll cs) := by
  unfold reconstruct flattenTrees buildForest emitAll
  rw [flattenKids_map_fst cs
    (fun j => buildKids cs (placeAll cs) (placeAll cs).length (idOf cs j))]
  congr 1
  funext r
  rw [emitF_spec]

theorem idxNotPrefix : ∀ (a : List Nat) (x : Nat) (r : List Nat), x ∉ a →
    (a ++ r).indexOf x = a.length + r.indexOf x := by
  intro a
  induction a with
  | nil => intro x r _; simp
  | cons y a ih =>
    intro x r h
    simp only [List.mem_cons, not_or] at h
    have hy : (y == x) = false := by simp [Ne.symm h.1]
    simp only [List.cons_append, List.indexOf_cons, hy, List.length_cons]
    rw [ih x r h.2]
    simp [Nat.succ_add]

theorem idx_lt_of_split (L1 : List Nat) (w : Nat) (L2 : List Nat) (x : Nat)
    (hnd : (L1 ++ w :: L2).Nodup) (hx : x ∈ L2) :
    (L1 ++ w :: L2).indexOf w < (L1 ++ w :: L2).indexOf x := by
  obtain ⟨h1, h2, hdisj⟩ := List.nodup_append.mp hnd
  have hw1 : w ∉ L1 := fun hm => hdisj hm (List.mem_cons_self w L2)
  have hx1 : x ∉ L1 := fun hm => hdisj hm (List.mem_cons_of_mem w hx)
  have hxw : ¬(w = x) := by
    intro he
    subst he
    exact (List.nodup_cons.mp h2).1 hx
  rw [idxAppend L1 w L2 hw1, idxNotPrefix L1 x (w :: L2) hx1]
  have : (w :: L2).indexOf x ≥ 1 := by
    have hb : (w == x) = false := by simp [hxw]
    simp [List.indexOf_cons, hb]
  omega

theorem emitF_follow (cs : List PyComment) (order : List Nat)
    (hg : GoodOrder cs order) (hnd : order.Nodup)
    (hids : (cs.map PyComment.cid).Nodup) :
    ∀ (f i : Nat), i ∈ order → order.length ≤ f + order.indexOf i →
      ∀ y, odesc cs order y i →
        ∃ l1 l2 f', i :: emitF cs order f (idOf cs i)
            = l1 ++ y :: (emitF cs order f' (idOf cs y) ++ l2) ∧
          order.length ≤ f' + order.indexOf y := by
  intro f
  induction f with
  | zero =>
    intro i hi hfuel
    have := pos_lt_length order i hi
    omega
  | succ f ih =>
    intro i hi hfuel y hdesc
    have hstep : ∃ k, k ∈ kidsOf cs order (idOf cs i) ∧
        (y = k ∨ odesc cs order y k) := by
      cases hdesc with
      | single h1 => exact ⟨y, mem_kidsOf.mpr ⟨h1.1, h1.2⟩, Or.inl rfl⟩
      | tail hyb hbi => exact ⟨_, mem_kidsOf.mpr ⟨hbi.1, hbi.2⟩, Or.inr hyb⟩
    obtain ⟨k, hk, hyk⟩ := hstep
    have hkm := mem_kidsOf.mp hk
    have hkpos : order.indexOf i < order.indexOf k :=
      pos_lt_of_child cs order hg hnd hids k i hkm.1 hi hkm.2
    have hfk : order.length ≤ f + order.indexOf k := by omega
    obtain ⟨a, b, hab⟩ := List.append_of_mem hk
    rcases hyk with rfl | hyk
    · refine ⟨i :: a.flatMap (fun m => m :: emitF cs order f (idOf cs m)),
        b.flatMap (fun m => m :: emitF cs order f (idOf cs m)), f, ?_, hfk⟩
      simp only [emitF, hab, List.flatMap_append, List.flatMap_cons]
      simp [List.append_assoc]
    · obtain ⟨l1', l2', f', heq, hf'⟩ := ih k hkm.1 hfk y hyk
      refine ⟨i :: a.flatMap (fun m => m :: emitF cs order f (idOf cs m)) ++ l1',
        l2' ++ b.flatMap (fun m => m :: emitF cs order f (idOf cs m)), f', ?_, hf'⟩
      simp only [emitF, hab, List.flatMap_append, List.flatMap_cons]
      rw [show (k :: emitF cs order f (idOf cs k)) = l1' ++ y ::
        (emitF cs order f' (idOf cs y) ++ l2') from heq]
      simp [List.append_assoc]

theorem root_above (cs : List PyComment) (order : List Nat)
    (hg : GoodOrder cs order) (hnd : order.Nodup)
    (hids : (cs.map PyComment.cid).Nodup) :
    ∀ (n y : Nat), order.indexOf y ≤ n → y ∈ order →
      ∃ r, r ∈ rootsOf cs order ∧ (y = r ∨ odesc cs order y r) := by
  intro n
  induction n with
  | zero =>
    intro y hy0 hy
    cases hpy : (cs.get? y).bind PyComment.parent with
    | none =>
      refine ⟨y, mem_rootsOf.mpr ⟨hy, ?_⟩, Or.inl rfl⟩
      cases hc : cs.get? y with
      | none =>
        have := goodOrder_mem_lt cs order hg y hy
        rw [List.get?_eq_get this] at hc
        exact Option.noConfusion hc
      | some c =>
        refine ⟨c, rfl, ?_⟩
        rw [hc] at hpy
        simpa using hpy
    | some pid =>
      obtain ⟨w, hw, hidw, hwlt⟩ := owner_exists cs order hg hnd y pid hy hpy
      omega
  | succ n ihn =>
    intro y hyn hy
    cases hpy : (cs.get? y).bind PyComment.parent with
    | none =>
      refine ⟨y, mem_rootsOf.mpr ⟨hy, ?_⟩, Or.inl rfl⟩
      cases hc : cs.get? y with
      | none =>
        have := goodOrder_mem_lt cs order hg y hy
        rw [List.get?_eq_get this] at hc
        exact Option.noConfusion hc
      | some c =>
        refine ⟨c, rfl, ?_⟩
        rw [hc] at hpy
        simpa using hpy
    | some pid =>
      obtain ⟨w, hw, hidw, hwlt⟩ := owner_exists cs order hg hnd y pid hy hpy
      have hpw : ((cs.get? y).bind PyComment.parent) = some (idOf cs w) := by
        rw [hpy, hidw]
      obtain ⟨r, hr, hrel⟩ := ihn w (by omega) hw
      refine ⟨r, hr, Or.inr ?_⟩
      have hro := (mem_rootsOf.mp hr).1
      exact (odesc_iff_owner cs order hg hnd hids y w hy hw hpw r hro).mpr hrel

theorem parent_before_in_emitAll (cs : List PyComment) (order : List Nat)
    (hg : GoodOrder cs order) (hnd : order.Nodup)
    (hids : (cs.map PyComment.cid).Nodup)
    (x w : Nat) (hx : x ∈ order) (hw : w ∈ order)
    (hpw : ((cs.get? x).bind PyComment.parent) = some (idOf cs w)) :
    (emitAll cs order).indexOf w < (emitAll cs order).indexOf x := by
  obtain ⟨r, hr, hrel⟩ :=
    root_above cs order hg hnd hids (order.indexOf w) w (le_refl _) hw
  have hro := (mem_rootsOf.mp hr).1
  have hfuel : order.length ≤ order.length + order.indexOf r :=
    Nat.le_add_right _ _
  -- locate w's segment inside r's segment
  have hseg : ∃ l1 l2 f', r :: emitF cs order order.length (idOf cs r)
      = l1 ++ w :: (emitF cs order f' (idOf cs w) ++ l2) ∧
      order.length ≤ f' + order.indexOf w := by
    rcases hrel with rfl | hrel
    · exact ⟨[], [], order.length, by simp, Nat.le_add_right _ _⟩
    · exact emitF_follow cs order hg hnd hids order.length r hro hfuel w hrel
  obtain ⟨l1, l2, f', hseq, hf'⟩ := hseg
  -- x lies inside w's own emitted block
  have hxmem : x ∈ emitF cs order f' (idOf cs w) := by
    have hcnt := (emitF_count cs order hg hnd hids (order.indexOf x) x
      (le_refl _) f' w hw hf').1
      (Relation.TransGen.single ⟨hx, hpw⟩)
    have : 0 < List.count x (emitF cs order f' (idOf cs w)) := by omega
    exact List.count_pos_iff_mem.mp this
  -- assemble a split of emitAll at w with x strictly after
  obtain ⟨ra, rb, hroots⟩ := List.append_of_mem hr
  have hE : emitAll cs order
      = (ra.flatMap (fun q => q :: emitF cs order order.length (idOf cs q)) ++ l1)
        ++ w :: (emitF cs order f' (idOf cs w) ++ l2
          ++ rb.flatMap (fun q => q :: emitF cs order order.length (idOf cs q))) := by
    unfold emitAll
    rw [hroots, List.flatMap_append, List.flatMap_cons]
    rw [show (r :: emitF cs order order.length (idOf cs r)) = l1 ++ w ::
      (emitF cs order f' (idOf cs w) ++ l2) from hseq]
    simp [List.append_assoc]
  have hEnd : (emitAll cs order).Nodup :=
    (List.Perm.nodup_iff (emitAll_perm cs order hg hnd hids)).mpr hnd
  rw [hE]
  rw [hE] at hEnd
  apply idx_lt_of_split _ _ _ _ hEnd
  exact List.mem_append_left _ (List.mem_append_left _ hxmem)

/-- C5 (amended): for a flat comment list with pairwise-distinct ids whose
fixed-point placement completes, the reconstruction preserves the comment
count, and in the flattened depth-first order every comment appears strictly
after the comment that carries its declared parent id.  (The claim's
sibling-ordering statement is refuted separately: sibling order is placement
order, not declaration order.) -/
theorem c5_reconstruction_order (cs : List PyComment)
    (hids : (cs.map PyComment.cid).Nodup)
    (hcomp : (placeAll cs).length = cs.length) :
    (reconstruct cs).length = cs.length ∧
    ∀ x w, x ∈ placeAll cs → w ∈ placeAll cs →
      ((cs.get? x).bind PyComment.parent) = some (idOf cs w) →
      ((reconstruct cs).map Prod.fst).indexOf w
        < ((reconstruct cs).map Prod.fst).indexOf x := by
  have hg := goodOrder_placeAll cs
  have hnd := goodOrder_nodup cs (placeAll cs) hg
  have hperm := emitAll_perm cs (placeAll cs) hg hnd hids
  constructor
  · have h1 : (reconstruct cs).length
        = ((reconstruct cs).map Prod.fst).length := by simp
    rw [h1, reconstruct_fst, hperm.length_eq, hcomp]
  · intro x w hx hw hpw
    rw [reconstruct_fst]
    exact parent_before_in_emitAll cs (placeAll cs) hg hnd hids x w hx hw hpw

/-- Witness for the amended C5 statement on the two-comment thread. -/
theorem c5_reconstruction_order_witness :
    (exComments2.map PyComment.cid).Nodup ∧
    (placeAll exComments2).length = exComments2.length ∧
    ((reconstruct exComments2).length = exComments2.length ∧
     ∀ x w, x ∈ placeAll exComments2 → w ∈ placeAll exComments2 →
       ((exComments2.get? x).bind PyComment.parent) = some (idOf exComments2 w) →
       ((reconstruct exComments2).map Prod.fst).indexOf w
         < ((reconstruct exComments2).map Prod.fst).indexOf x) :=
  ⟨by decide, by decide,
   c5_reconstruction_order exComments2 (by decide) (by decide)⟩

/-! ## Counterexamples for C2, C3, C5 -/

/-- C2 counterexample: `exUrl1`'s storage path exists on disk before the run,
yet its CrawlNode ends with `already_processed = false`, the crawler recurses
into the cached body (two descendants discovered, one network call for the
continuation page it names), and the duplicates counter stays 0: the
mark/skip behaviour applies only to paths already constructed earlier in the
same run, not to pre-existing files. -/
theorem c2_counterexample :
    (alookup (storagePathOfUrl exCfg [] exUrl1) exStateResume.fs).isSome = true ∧
    exRunResume.tree.map TNode.alreadyProcessed = [false] ∧
    (exRunResume.tree.get? 0).map (fun n => n.children.length) = some 2 ∧
    exRunResume.netLog = [exUrl2] ∧
    exRunResume.duplicatesSkipped = 0 ∧
    exRunResume.alreadyDownloaded = 2 := by decide

/-- C3 counterexample: in a fresh crawl of a page with a `next` link, started
from the real initial location `(0,)`, the current node's sibling list (the
top level) keeps a single node — no sibling is ever registered — and the
continuation's node is the *first child* of the current node. -/
theorem c3_counterexample :
    exRunFresh.tree.map TNode.url = [exUrl1] ∧
    (exRunFresh.tree.get? 0).map (fun n => (n.children.map TNode.url).take 1)
      = some [exUrl2] := by decide

/-- C5 counterexample: in `exComments5` all parents are satisfiable and ids
are distinct, yet comment index 0 (id 10) appears *after* index 4 — a
descendant of index 2, the later-declared sibling of index 0 under their
shared parent id 1 — because sibling order follows placement order, not
declaration order, when a parent appears after its child in the flat list. -/
theorem c5_counterexample :
    (placeAll exComments5).length = exComments5.length ∧
    (exComments5.map PyComment.cid).Nodup ∧
    (exComments5.get? 0).map PyComment.parent = some (some 1) ∧
    (exComments5.get? 2).map PyComment.parent = some (some 1) ∧
    idOf exComments5 2 = 2 ∧
    (exComments5.get? 4).map PyComment.parent = some (some 2) ∧
    (reconstruct exComments5).map Prod.fst = [1, 2, 4, 0, 3] ∧
    ((reconstruct exComments5).map Prod.fst).indexOf 4
      < ((reconstruct exComments5).map Prod.fst).indexOf 0 := by decide

end BBHE
